import Mathlib

/-!
Verification development for the Detessellate repository.

The repository is a collection of FreeCAD macros; the core verified here is
the 2D reconstruction pipeline of Macros/SketchReProfile/SketchReProfile.py
and the phased wire-topology analyzer of
Macros/SketcherWireDoctor/SketcherWireDoctor_Tab4.py.

Modelling conventions:
* machine floats are modelled by exact rationals;
* Python object identity (id(edge)) is modelled by a natural-number field
  eid carried by each edge record;
* Python dicts are modelled by association lists (first matching key wins,
  mirroring unique dict keys);
* the transcendental direction angle degrees(atan2(dy, dx)) and the angle
  between two direction vectors are taken as function parameters of the
  embedded detectors: the combinatorial logic of the source never inspects
  the coordinates behind an angle, only compares angle values;
* unbounded Python while-loops whose progress comes from a growing
  used-identity set are given an explicit fuel argument; theorems quantify
  over the fuel where the property is fuel-independent.
-/

set_option maxRecDepth 8000

namespace Detessellate

/-! ### Kernel-computable rational arithmetic

The embedded detectors compare exact rational quantities. The standard
field operations on ℚ hide behind instance towers that the kernel cannot
evaluate on closed terms, so the embedding uses the following primitives,
each defined directly through mkRat / num / den, together with lemmas
identifying them with the standard operations. -/

/-- Subtraction on ℚ through mkRat. -/
def ratSub (a b : ℚ) : ℚ := mkRat (a.num * b.den - b.num * a.den) (a.den * b.den)

/-- Addition on ℚ through mkRat. -/
def ratAdd (a b : ℚ) : ℚ := mkRat (a.num * b.den + b.num * a.den) (a.den * b.den)

/-- Multiplication on ℚ through mkRat. -/
def ratMul (a b : ℚ) : ℚ := mkRat (a.num * b.num) (a.den * b.den)

/-- Absolute value on ℚ through mkRat. -/
def ratAbs (a : ℚ) : ℚ := mkRat (a.num.natAbs : ℤ) a.den

/-- Strict comparison on ℚ by cross multiplication. -/
def ratLtB (a b : ℚ) : Bool := decide (a.num * (b.den : ℤ) < b.num * (a.den : ℤ))

/-- Non-strict comparison on ℚ by cross multiplication. -/
def ratLeB (a b : ℚ) : Bool := decide (a.num * (b.den : ℤ) ≤ b.num * (a.den : ℤ))

namespace SketchReProfile

/-- A 2D point with exact rational coordinates. -/
abbrev Pt : Type := ℚ × ℚ

/-! ### Vertex merging (SketchReProfile.py, find_connected_vertices, lines 62-75) -/

/-- The per-axis closeness test of line 67:
abs(pt[0]-p[0]) < tol and abs(pt[1]-p[1]) < tol. -/
def closePt (tol : ℚ) (pt p : Pt) : Bool :=
  ratLtB (ratAbs (ratSub pt.1 p.1)) tol && ratLtB (ratAbs (ratSub pt.2 p.2)) tol


/-- One endpoint insertion of lines 66-71: scan the group list in order and
append the point to the first group holding a point close to it; otherwise
open a fresh singleton group at the end. -/
def insertPt (tol : ℚ) : List (List Pt) → Pt → List (List Pt)
  | [], pt => [[pt]]
  | g :: gs, pt =>
      if g.any (fun p => closePt tol pt p) then (g ++ [pt]) :: gs
      else g :: insertPt tol gs pt

/-- The endpoint stream of lines 64-65: for each edge, its start point then
its end point, in edge order. -/
def edgeEndpointStream (edges : List (Pt × Pt)) : List Pt :=
  edges.flatMap (fun e => [e.1, e.2])

/-- find_connected_vertices (lines 62-71): fold every endpoint occurrence
through insertPt, yielding the final group list. -/
def find_connected_vertices (edges : List (Pt × Pt)) (tol : ℚ) : List (List Pt) :=
  (edgeEndpointStream edges).foldl (insertPt tol) []

/-- The dict comprehension of line 72, as an association list: one pair
(pt, head of its group) per group member, groups in order. -/
def mappingPairs (groups : List (List Pt)) : List (Pt × Pt) :=
  groups.flatMap (fun g => g.map (fun pt => (pt, g.headI)))

/-- Lookup in the Python dict built by line 72: the last assignment for a
key wins, so we search the reversed pair list. -/
def applyMapping (m : List (Pt × Pt)) (pt : Pt) : Pt :=
  match m.reverse.find? (fun x => decide (x.1 = pt)) with
  | some x => x.2
  | none => pt

/-- The merge tolerance default of line 62, built through mkRat so that it
evaluates; it equals 1e-6 (see C1_vertex_merge_not_transitive). -/
def mergeTol : ℚ := mkRat 1 1000000

/-- Chain endpoint A of the failing input for claim C1. -/
def ptA : Pt := (mkRat 0 1, mkRat 0 1)

/-- Chain endpoint B of the failing input: 9e-7 from A, 9e-7 from C. -/
def ptB : Pt := (mkRat 9 10000000, mkRat 0 1)

/-- Chain endpoint C of the failing input: 18e-7 from A, beyond tolerance. -/
def ptC : Pt := (mkRat 18 10000000, mkRat 0 1)

/-- The failing edge list for claim C1: the first edge presents A then C,
the second presents A then B. -/
def edgesC1 : List (Pt × Pt) := [(ptA, ptC), (ptA, ptB)]

/-! ### Edges with identity, graph and lookup (SketchReProfile.py)

The run detectors treat merged vertex coordinates as opaque keys: they are
only compared for equality and used to index the graph and the edge
lookup, so the embedding keeps the vertex type V abstract. The eid field
models Python object identity id(edge); the etype field models the type
key of the edge dict. -/

/-- The type tag of an extracted edge dict. -/
inductive EType
  | line
  | arc
deriving DecidableEq

/-- An edge record of the reconstruction pipeline over vertex type V. -/
structure REdge (V : Type) where
  eid : ℕ
  etype : EType
  start : V
  endp : V
deriving DecidableEq

/-- The adjacency dict built by build_graph (lines 77-85). -/
abbrev RGraph (V : Type) := List (V × List V)

/-- The vertex-pair-to-edge dict built by build_graph. -/
abbrev RLookup (V : Type) := List ((V × V) × REdge V)

variable {V : Type} [DecidableEq V]

/-- Python dict access graph.get(v, []). -/
def graphGet (g : RGraph V) (v : V) : List V :=
  match g.find? (fun e => decide (e.1 = v)) with
  | some e => e.2
  | none => []

/-- Python dict access edge_lookup.get(k). -/
def lookupGet (l : RLookup V) (k : V × V) : Option (REdge V) :=
  (l.find? (fun e => decide (e.1 = k))).map (fun e => e.2)

/-- get_edge_between_vertices (lines 339-341 and 429-431): the (v1,v2)
entry if present, the (v2,v1) entry otherwise. -/
def getEdgeBetween (l : RLookup V) (v1 v2 : V) : Option (REdge V) :=
  match lookupGet l (v1, v2) with
  | some e => some e
  | none => lookupGet l (v2, v1)

/-! ### Colinear run detection (find_colinear_edge_runs, lines 331-404)

The direction angle degrees(atan2(dy, dx)) of compute_angle (lines
334-337) is transcendental; the embedding abstracts it as a parameter
angleOf assigning each edge its direction angle in degrees. -/

/-- The candidate scan of lines 366-385: walk the neighbours of the
current vertex in order and return the first one whose connecting edge
exists, is unclaimed, is a line, and whose direction angle matches the
base angle of the run within angleTol. -/
def colinearCandidate (angleOf : REdge V → ℚ) (lookup : RLookup V) (angleTol : ℚ)
    (used : List ℕ) (base : ℚ) (cur : V) : List V → Option (REdge V × V)
  | [] => none
  | cv :: rest =>
      if cv = cur then colinearCandidate angleOf lookup angleTol used base cur rest
      else
        match getEdgeBetween lookup cur cv with
        | some ce =>
            if ce.eid ∉ used ∧ ce.etype = EType.line ∧
                ratLeB (ratAbs (ratSub (angleOf ce) base)) angleTol = true then
              some (ce, cv)
            else colinearCandidate angleOf lookup angleTol used base cur rest
        | none => colinearCandidate angleOf lookup angleTol used base cur rest

/-- The directional chain walk of lines 357-394, with explicit fuel for
the while-loop. Each accepted edge is appended to the run and its identity
is claimed. -/
def colinearExtend (angleOf : REdge V → ℚ) (graph : RGraph V) (lookup : RLookup V)
    (angleTol : ℚ) : ℕ → List (REdge V) → List ℕ → ℚ → V → List (REdge V) × List ℕ
  | 0, run, used, _, _ => (run, used)
  | fuel + 1, run, used, base, cur =>
      match colinearCandidate angleOf lookup angleTol used base cur (graphGet graph cur) with
      | none => (run, used)
      | some (e, v) =>
          colinearExtend angleOf graph lookup angleTol fuel
            (run ++ [e]) (used ++ [e.eid]) base v

/-- One seed round of lines 351-394: claim the seed, then extend from its
start vertex and from its end vertex. -/
def colinearSeed (angleOf : REdge V → ℚ) (graph : RGraph V) (lookup : RLookup V)
    (angleTol : ℚ) (fuel : ℕ) (used : List ℕ) (e : REdge V) :
    List (REdge V) × List ℕ :=
  let p1 := colinearExtend angleOf graph lookup angleTol fuel
    [e] (used ++ [e.eid]) (angleOf e) e.start
  colinearExtend angleOf graph lookup angleTol fuel p1.1 p1.2 (angleOf e) e.endp

/-- One iteration of the seed loop of lines 346-402 over the running
state (kept runs, claimed identities): skip seeds already claimed or not
lines; keep runs of at least minRun edges; give the identities of shorter
runs back (lines 396-402). -/
def colinearStep (angleOf : REdge V → ℚ) (graph : RGraph V) (lookup : RLookup V)
    (angleTol : ℚ) (minRun : ℕ) (fuel : ℕ)
    (st : List (List (REdge V)) × List ℕ) (e : REdge V) :
    List (List (REdge V)) × List ℕ :=
  if e.eid ∈ st.2 ∨ e.etype ≠ EType.line then st
  else
    let p := colinearSeed angleOf graph lookup angleTol fuel st.2 e
    if minRun ≤ p.1.length then (st.1 ++ [p.1], p.2)
    else (st.1, p.2.filter (fun i => decide (i ∉ p.1.map REdge.eid)))

/-- find_colinear_edge_runs (lines 331-404): returns the kept runs and the
final claimed-identity set. -/
def find_colinear_edge_runs (angleOf : REdge V → ℚ) (unused : List (REdge V))
    (graph : RGraph V) (lookup : RLookup V) (angleTol : ℚ) (minRun : ℕ) (fuel : ℕ) :
    List (List (REdge V)) × List ℕ :=
  unused.foldl (colinearStep angleOf graph lookup angleTol minRun fuel) ([], [])

/-! ### Spline run detection (find_spline_runs, lines 406-550)

The angle between consecutive direction vectors (angle_between_vectors,
lines 422-427) is transcendental; the embedding abstracts it as a
parameter vecAngle on pairs of edges. -/

/-- The candidate scan of lines 450-465: unlike the colinear detector,
candidates are checked against BOTH the global claimed set and the local
spline set (the fix noted in the source), and must be lines. -/
def splineCandidate (lookup : RLookup V) (globalUsed localUsed : List ℕ) (cur : V) :
    List V → Option (REdge V × V)
  | [] => none
  | cv :: rest =>
      if cv = cur then splineCandidate lookup globalUsed localUsed cur rest
      else
        match getEdgeBetween lookup cur cv with
        | some ce =>
            if ce.eid ∉ globalUsed ∧ ce.eid ∉ localUsed ∧ ce.etype = EType.line then
              some (ce, cv)
            else splineCandidate lookup globalUsed localUsed cur rest
        | none => splineCandidate lookup globalUsed localUsed cur rest

/-- The directional chain walk of lines 439-478: an accepted edge is
prepended when the current vertex is still the seed start vertex and
appended otherwise (lines 467-472). -/
def splineExtend (graph : RGraph V) (lookup : RLookup V) (globalUsed : List ℕ)
    (seedStart : V) : ℕ → List (REdge V) → List ℕ → V → List (REdge V) × List ℕ
  | 0, chain, localUsed, _ => (chain, localUsed)
  | fuel + 1, chain, localUsed, cur =>
      match splineCandidate lookup globalUsed localUsed cur (graphGet graph cur) with
      | none => (chain, localUsed)
      | some (e, v) =>
          splineExtend graph lookup globalUsed seedStart fuel
            (if cur = seedStart then e :: chain else chain ++ [e])
            (localUsed ++ [e.eid]) v

/-- build_connected_chain (lines 433-480). -/
def build_connected_chain (graph : RGraph V) (lookup : RLookup V) (globalUsed : List ℕ)
    (fuel : ℕ) (localUsed : List ℕ) (e : REdge V) : List (REdge V) × List ℕ :=
  let p1 := splineExtend graph lookup globalUsed e.start fuel [e] (localUsed ++ [e.eid]) e.start
  splineExtend graph lookup globalUsed e.start fuel p1.1 p1.2 e.endp

/-- The break-point scan of lines 482-501: index i+1 is a break point when
the direction change between edges i and i+1 exceeds the threshold. -/
def breakPoints (vecAngle : REdge V → REdge V → ℚ) (thr : ℚ)
    (chain : List (REdge V)) : List ℕ :=
  (List.range (chain.length - 1)).foldl
    (fun bps i =>
      match chain.get? i, chain.get? (i + 1) with
      | some a, some b => if ratLtB thr (vecAngle a b) = true then bps ++ [i + 1] else bps
      | _, _ => bps)
    []

/-- analyze_angular_progression (lines 482-501). -/
def analyze_angular_progression (vecAngle : REdge V → REdge V → ℚ) (thr : ℚ)
    (chain : List (REdge V)) : Bool × List ℕ :=
  if chain.length < 2 then (false, [])
  else
    let bps := breakPoints vecAngle thr chain
    (decide (bps = []), bps)

/-- split_chain_at_breaks (lines 503-520): cut the chain at the break
indices, keeping only slices of at least minRun edges; the slice start
moves to each break point unconditionally. -/
def split_chain_at_breaks (minRun : ℕ) (chain : List (REdge V)) (bps : List ℕ) :
    List (List (REdge V)) :=
  if bps = [] then [chain]
  else
    let p := bps.foldl
      (fun (acc : List (List (REdge V)) × ℕ) b =>
        if minRun ≤ b - acc.2 then (acc.1 ++ [(chain.drop acc.2).take (b - acc.2)], b)
        else (acc.1, b))
      ([], 0)
    if minRun ≤ chain.length - p.2 then p.1 ++ [chain.drop p.2] else p.1

/-- find_spline_runs (lines 406-550): returns the kept spline runs and the
local claimed-identity set. -/
def find_spline_runs (vecAngle : REdge V → REdge V → ℚ) (unused : List (REdge V))
    (graph : RGraph V) (lookup : RLookup V) (globalUsed : List ℕ)
    (thr : ℚ) (minRun : ℕ) (fuel : ℕ) : List (List (REdge V)) × List ℕ :=
  unused.foldl
    (fun st e =>
      if e.eid ∈ st.2 ∨ e.etype ≠ EType.line then st
      else
        let p := build_connected_chain graph lookup globalUsed fuel st.2 e
        if minRun ≤ p.1.length then
          let a := analyze_angular_progression vecAngle thr p.1
          if a.1 then (st.1 ++ [p.1], p.2)
          else if a.2 ≠ [] then (st.1 ++ split_chain_at_breaks minRun p.1 a.2, p.2)
          else (st.1, p.2)
        else (st.1, p.2.filter (fun i => decide (i ∉ p.1.map REdge.eid))))
    ([], [])

/-! ### Polygon detection (detect_polygons, lines 87-110) -/

/-- A detected polygon: the walked vertex list and the resolved edges. -/
structure RPoly (V : Type) where
  vertices : List V
  edges : List (REdge V)
deriving DecidableEq

/-- The greedy walk of lines 92-99, the 100-iteration cap as fuel: append
the current vertex, mark it visited, then stop at a dead end or when the
first remaining neighbour is the start vertex and at least 3 vertices were
walked; otherwise follow that neighbour. The Bool records whether the walk
stopped because it returned to its starting vertex. -/
def polyWalk (graph : RGraph V) (v : V) :
    ℕ → V → Option V → List V → List V → List V × List V × Bool
  | 0, _, _, poly, visited => (poly, visited, false)
  | fuel + 1, cur, prev, poly, visited =>
      let poly1 := poly ++ [cur]
      let visited1 := if cur ∈ visited then visited else visited ++ [cur]
      match (graphGet graph cur).filter (fun n => decide (some n ≠ prev)) with
      | [] => (poly1, visited1, false)
      | n :: _ =>
          if n = v ∧ 3 ≤ poly1.length then (poly1, visited1, true)
          else polyWalk graph v fuel n (some cur) poly1 visited1

/-- The edge resolution of lines 100-107: for each consecutive pair of
walked vertices, cyclically wrapping back to the first, keep the direct
lookup entry when present and skip the pair otherwise. -/
def polyEdges (lookup : RLookup V) (poly : List V) : List (REdge V) :=
  (List.range poly.length).filterMap
    (fun i =>
      match poly.get? i, poly.get? ((i + 1) % poly.length) with
      | some a, some b => lookupGet lookup (a, b)
      | _, _ => none)

/-- One iteration of the outer loop of lines 89-109 over the running
state (kept polygons, visited vertices). -/
def detectStep (graph : RGraph V) (lookup : RLookup V)
    (st : List (RPoly V) × List V) (entry : V × List V) : List (RPoly V) × List V :=
  if entry.1 ∈ st.2 then st
  else
    let w := polyWalk graph entry.1 100 entry.1 none [] st.2
    if 3 ≤ w.1.length then
      let es := polyEdges lookup w.1
      if es ≠ [] then (st.1 ++ [⟨w.1, es⟩], w.2.1) else (st.1, w.2.1)
    else (st.1, w.2.1)

/-- detect_polygons (lines 87-110): walk from each unvisited vertex in
dict insertion order; keep the walked sequence as a polygon when it has
at least 3 vertices and at least one resolvable edge. Returns the polygon
list and the visited set. -/
def detect_polygons (graph : RGraph V) (lookup : RLookup V) :
    List (RPoly V) × List V :=
  graph.foldl (detectStep graph lookup) ([], [])

/-- First edge of the open C7 path over vertex keys 0-1-2. -/
def edgeP1 : REdge ℕ := ⟨0, EType.line, 0, 1⟩

/-- Second edge of the open C7 path. -/
def edgeP2 : REdge ℕ := ⟨1, EType.line, 1, 2⟩

/-- Adjacency of the open C7 path. -/
def graphP : RGraph ℕ := [(0, [1]), (1, [0, 2]), (2, [1])]

/-- Edge lookup of the open C7 path; there is no edge between keys 2 and
0, so the walked sequence 0-1-2 never closes. -/
def lookupP : RLookup ℕ :=
  [((0, 1), edgeP1), ((1, 0), edgeP1), ((1, 2), edgeP2), ((2, 1), edgeP2)]

/-! ### Transaction skeleton (final_sketcher_main, lines 867-976) -/

/-- A host document action observable from final_sketcher_main. -/
inductive HostAction
  | openTxn (name : String)
  | commitTxn
  | abortTxn
  | printError (msg : String)
deriving DecidableEq

/-- final_sketcher_main (lines 867-976), transaction skeleton: without an
open sketch it only prints an error and returns (lines 869-871);
otherwise it opens one transaction (line 873), runs the reconstruction
pipeline inside try, and either commits at the end of the try block
(line 972) or, on any exception, aborts that transaction and surfaces the
error (lines 974-976). The pipeline body is abstracted as an Except value
because any of its host calls may raise. -/
def final_sketcher_main (sketchOpen : Bool) (pipeline : Except String Unit) :
    List HostAction :=
  if !sketchOpen then [HostAction.printError "No sketch open."]
  else
    HostAction.openTxn "SketchPolygonsToCircles" ::
      (match pipeline with
       | Except.ok _ => [HostAction.commitTxn]
       | Except.error e =>
           [HostAction.abortTxn,
            HostAction.printError ("Macro aborted due to error: " ++ e)])

/-- Number of transaction openings in a trace. -/
def countOpens (tr : List HostAction) : ℕ :=
  tr.countP (fun a => match a with | HostAction.openTxn _ => true | _ => false)

/-- Number of commits in a trace. -/
def countCommits (tr : List HostAction) : ℕ :=
  tr.countP (fun a => match a with | HostAction.commitTxn => true | _ => false)

/-- Number of aborts in a trace. -/
def countAborts (tr : List HostAction) : ℕ :=
  tr.countP (fun a => match a with | HostAction.abortTxn => true | _ => false)

/-- Well-formedness of a colinear run for claim C9: the run starts with
its seed edge and every member is a line edge whose direction angle
matches the angle of the seed (the base angle of lines 354 and 381)
within the tolerance. -/
def goodRun (angleOf : REdge V → ℚ) (angleTol : ℚ) (run : List (REdge V)) : Prop :=
  ∃ seed, run.head? = some seed ∧
    ∀ x ∈ run, x.etype = EType.line ∧ |angleOf x - angleOf seed| ≤ angleTol

/-! ### Concrete inputs for claims C9 and C2

For C9: three connected line edges along vertex keys 0-1-2-3; the middle
connection matches the first edge within 1e-4 degrees, the last edge is
offset by 0.1 degrees. For C2: a unit square (edges 0-3, already claimed
by the circle/arc detectors) with an unclaimed colinear stub edge 4
attached at vertex key 0. -/

/-- First edge of the C9 chain, direction angle 0. -/
def edgeK1 : REdge ℕ := ⟨0, EType.line, 0, 1⟩

/-- Second edge of the C9 chain, direction angle 1e-4 degrees. -/
def edgeK2 : REdge ℕ := ⟨1, EType.line, 1, 2⟩

/-- Third edge of the C9 chain, direction angle 0.1 degrees. -/
def edgeK3 : REdge ℕ := ⟨2, EType.line, 2, 3⟩

/-- Adjacency of the C9 chain. -/
def graphK : RGraph ℕ := [(0, [1]), (1, [0, 2]), (2, [1, 3]), (3, [2])]

/-- Edge lookup of the C9 chain, both directions per edge as built by
build_graph line 84. -/
def lookupK : RLookup ℕ :=
  [((0, 1), edgeK1), ((1, 0), edgeK1), ((1, 2), edgeK2), ((2, 1), edgeK2),
   ((2, 3), edgeK3), ((3, 2), edgeK3)]

/-- Direction angles of the C9 chain, in degrees. -/
def angleK : REdge ℕ → ℚ := fun e =>
  if e.eid = 1 then mkRat 1 10000 else if e.eid = 2 then mkRat 1 10 else mkRat 0 1

/-- Bottom edge of the C2 square, direction angle 0; claimed by the
earlier detectors. -/
def edgeS0 : REdge ℕ := ⟨0, EType.line, 0, 1⟩

/-- Right edge of the C2 square, direction angle 90. -/
def edgeS1 : REdge ℕ := ⟨1, EType.line, 1, 2⟩

/-- Top edge of the C2 square, direction angle 180. -/
def edgeS2 : REdge ℕ := ⟨2, EType.line, 2, 3⟩

/-- Left edge of the C2 square, direction angle -90. -/
def edgeS3 : REdge ℕ := ⟨3, EType.line, 3, 0⟩

/-- The unclaimed stub of the C2 scenario, colinear with edgeS0 and
sharing vertex key 0 with the square. -/
def edgeS4 : REdge ℕ := ⟨4, EType.line, 4, 0⟩

/-- Adjacency over all five C2 edges, as built by build_graph over the
full edge list. -/
def graphS : RGraph ℕ :=
  [(0, [1, 3, 4]), (1, [0, 2]), (2, [1, 3]), (3, [2, 0]), (4, [0])]

/-- Edge lookup over all five C2 edges. -/
def lookupS : RLookup ℕ :=
  [((0, 1), edgeS0), ((1, 0), edgeS0), ((1, 2), edgeS1), ((2, 1), edgeS1),
   ((2, 3), edgeS2), ((3, 2), edgeS2), ((3, 0), edgeS3), ((0, 3), edgeS3),
   ((4, 0), edgeS4), ((0, 4), edgeS4)]

/-- Direction angles of the C2 edges, in degrees. -/
def angleS : REdge ℕ → ℚ := fun e =>
  if e.eid = 1 then mkRat 90 1
  else if e.eid = 2 then mkRat 180 1
  else if e.eid = 3 then mkRat (-90) 1
  else mkRat 0 1

/-- The global claimed-identity set of the C2 scenario: the square edges
were claimed by the equilateral-polygon / partial-arc detectors. -/
def globalUsedS : List ℕ := [0, 1, 2, 3]

/-- Direction-vector angle changes of the C2 scenario (unused by the
violating trace; any value works). -/
def vecAngleS : REdge ℕ → REdge ℕ → ℚ := fun _ _ => mkRat 0 1

/-! ### Edge extraction (SketchReProfile.py, extract_edge_data, lines 46-60) -/

/-- A sketch geometry entry, dispatching on its TypeId string as the source
does; noTypeId stands for objects failing the hasattr check of line 49. -/
inductive SketchGeom
  | lineSegment (startPoint endPoint : Pt)
  | arcOfCircle (startPoint endPoint center : Pt) (radius : ℚ)
  | circle (center : Pt) (radius : ℚ)
  | bSplineCurve
  | ellipse
  | point
  | noTypeId
deriving DecidableEq

/-- An extracted edge record as built on lines 51-53 and 55-59. -/
inductive EdgeData
  | line (start endp : Pt)
  | arc (start endp center : Pt) (radius : ℚ)
deriving DecidableEq

/-- extract_edge_data (lines 46-60): walk the geometry list in order,
appending one record per line segment or arc of circle, nothing otherwise. -/
def extract_edge_data (geoms : List SketchGeom) : List EdgeData :=
  geoms.foldl
    (fun data geo =>
      match geo with
      | .lineSegment s e => data ++ [.line s e]
      | .arcOfCircle s e c r => data ++ [.arc s e c r]
      | _ => data)
    []

/-- Modelled from the claim: the record an entry should contribute — one
line record per GeomLineSegment, one arc record per GeomArcOfCircle, and
nothing for every other geometry kind. -/
def edgeRecordOf : SketchGeom → Option EdgeData
  | .lineSegment s e => some (.line s e)
  | .arcOfCircle s e c r => some (.arc s e c r)
  | _ => none


end SketchReProfile

namespace WireDoctor

/-! ### Coordinate rounding (SketcherWireDoctor_Tab4.py, lines 74-76)

Tab4 line 26 imports round_coord (8 digits) from SketcherWireDoctor_Main,
but the module-level def at Tab4 line 74 executes afterwards and shadows
it with digits = 7, so every use inside Tab4 rounds to 7 decimal digits.
Python round() on a float is round-half-to-even; over the exact rationals
of the embedding it is modelled by pyRound below. -/

/-- Floor of a rational via flooring integer division of num by den. -/
def ratFloor (a : ℚ) : ℤ := Int.fdiv a.num (a.den : ℤ)

/-- Round half to even at integer precision over exact rationals. -/
def pyRound (q : ℚ) : ℤ :=
  let f := ratFloor q
  let frac := ratSub q (mkRat f 1)
  if ratLtB frac (mkRat 1 2) = true then f
  else if ratLtB (mkRat 1 2) frac = true then f + 1
  else if f % 2 = 0 then f else f + 1

/-- Python round(x, digits) over exact rationals. -/
def roundTo (digits : ℕ) (q : ℚ) : ℚ :=
  mkRat (pyRound (ratMul q (mkRat (10 ^ digits) 1))) (10 ^ digits)

/-- round_coord (Tab4 lines 74-76): digits defaults to 7. -/
def round_coord (p : ℚ × ℚ) : ℚ × ℚ := (roundTo 7 p.1, roundTo 7 p.2)

/-- A sketch geometry entry as the wire doctor dispatches on TypeId,
carrying the raw (pre-rounding) points of the host geometry. -/
inductive WdGeom
  | lineSegment (startPoint endPoint : ℚ × ℚ)
  | arcOfCircle (startPoint endPoint : ℚ × ℚ)
  | bSplineCurve (startPoint endPoint : ℚ × ℚ)
  | ellipse (startPoint endPoint : ℚ × ℚ)
  | circle
deriving DecidableEq

/-- get_geometry_endpoints (Tab4 lines 83-100): line segments, the arc
types, B-splines and ellipses yield their rounded start and end keys;
circles have no endpoints. -/
def get_geometry_endpoints : WdGeom → Option (ℚ × ℚ) × Option (ℚ × ℚ)
  | WdGeom.lineSegment s e => (some (round_coord s), some (round_coord e))
  | WdGeom.arcOfCircle s e => (some (round_coord s), some (round_coord e))
  | WdGeom.bSplineCurve s e => (some (round_coord s), some (round_coord e))
  | WdGeom.ellipse s e => (some (round_coord s), some (round_coord e))
  | WdGeom.circle => (none, none)

/-- A coincident constraint as seen through sketch.getPoint: the raw
points of its two references. -/
structure CoincidentConstraint where
  p1 : ℚ × ℚ
  p2 : ℚ × ℚ
deriving DecidableEq

/-- The key/value additions of the Coincident branch of
_build_constraint_connectivity (Tab4 lines 754-761): both keys are the
rounded constrained points, each mapped to the other. -/
def constraintMapEntries (c : CoincidentConstraint) : List ((ℚ × ℚ) × (ℚ × ℚ)) :=
  [(round_coord c.p1, round_coord c.p2), (round_coord c.p2, round_coord c.p1)]

/-! ### Phase gating of WireTopologyAnalyzer.analyze (Tab4 lines 116-158)

Each diagnosis phase body is abstracted as the issues it records before a
possible exception point, plus that optional exception: the phased
methods _phase2 ... _phase5 wrap their bodies in try/except blocks that
log and fall through (lines 427-429, 645-647, 677-679, 712-714, 740-742),
so a later phase keeps its issues and never stops the pipeline, while
_phase1_constraint_resolution (lines 196-199) marks its result as failed
and analyze (lines 130-132) then returns the issues collected so far. -/

/-- The issue categories of Tab4 lines 49-54. -/
inductive TopoIssueType
  | isolation
  | geometricValidity
  | bridge
  | subdivision
  | tJunction
deriving DecidableEq

/-- A topology issue (Tab4 lines 56-62), reduced to the fields the claims
speak about. -/
structure WIssue where
  geoIdx : ℕ
  itype : TopoIssueType
  severity : ℕ
deriving DecidableEq

/-- A phase result (Tab4 lines 64-72). -/
structure PhaseResult where
  issues : List WIssue
  success : Bool
  errorMessage : String
deriving DecidableEq

/-- One phase body: the issues recorded before its exception point, and
the exception if one is raised. -/
structure PhaseBody where
  issues : List WIssue
  err : Option String
deriving DecidableEq

/-- Phase identifiers in pipeline order: 1, 2, 2.5, 3, 4, 5. -/
inductive PhaseId
  | ph1
  | ph2
  | ph25
  | ph3
  | ph4
  | ph5
deriving DecidableEq

/-- One analyzer run: a possible error in _prepare_geometry and the six
phase bodies. -/
structure AnalyzerRun where
  prepErr : Option String
  p1 : PhaseBody
  p2 : PhaseBody
  p25 : PhaseBody
  p3 : PhaseBody
  p4 : PhaseBody
  p5 : PhaseBody

/-- _phase1_constraint_resolution (lines 173-201): an exception anywhere
in the body is caught, marks the result failed and stores the message;
issues recorded before the exception stay. -/
def runPhase1 (b : PhaseBody) : PhaseResult :=
  match b.err with
  | none => ⟨b.issues, true, ""⟩
  | some m => ⟨b.issues, false, m⟩

/-- A later phase (_phase2 ... _phase5): its except block only logs, so
the result keeps the issues recorded before the exception point and stays
successful. -/
def runLaterPhase (b : PhaseBody) : PhaseResult :=
  ⟨b.issues, true, ""⟩

/-- _collect_all_issues (lines 1462-1471) flattens the recorded phase
results; the source groups by issue type, which preserves exactly the
same issue multiset, so the embedding returns the concatenation in phase
order. -/
def collectAllIssues (results : List PhaseResult) : List WIssue :=
  results.flatMap (fun r => r.issues)

/-- WireTopologyAnalyzer.analyze (lines 116-158): prepare, then phase 1;
on phase-1 failure return the issues collected so far; otherwise run
phases 2, 2.5, 3, 4, 5 in order and collect everything. An exception in
_prepare_geometry hits the outer except (lines 156-158), which returns an
empty dict. The first component is the trace of executed phases. -/
def analyze (r : AnalyzerRun) : List PhaseId × List WIssue :=
  match r.prepErr with
  | some _ => ([], [])
  | none =>
      let r1 := runPhase1 r.p1
      if r1.success = false then ([PhaseId.ph1], collectAllIssues [r1])
      else
        ([PhaseId.ph1, PhaseId.ph2, PhaseId.ph25, PhaseId.ph3, PhaseId.ph4, PhaseId.ph5],
         collectAllIssues
           [r1, runLaterPhase r.p2, runLaterPhase r.p25, runLaterPhase r.p3,
            runLaterPhase r.p4, runLaterPhase r.p5])

/-! ### Connectivity graph, bridges and subdivisions (Tab4)

The analyzer keys its graphs by rounded coordinate tuples; the bridge and
subdivision logic only compares keys for equality, so the vertex type V
stays abstract. The loop list produced by _find_all_loops is passed as a
parameter to the functions that call it. -/

variable {V : Type} [DecidableEq V]

/-- A normal-geometry entry as the analyzer sees it: geometry index and
rounded endpoint keys (the get_geometry_endpoints result). -/
structure WGeom (V : Type) where
  idx : ℕ
  start? : Option V
  endp? : Option V
deriving DecidableEq

/-- The adjacency dict self.connectivity_graph[graph]. -/
abbrev WGraph (V : Type) := List (V × List V)

/-- The edge dict self.connectivity_graph[edge_map]: both directed vertex
pairs of an edge map to its geometry index (lines 892-893). -/
abbrev WEdgeMap (V : Type) := List ((V × V) × ℕ)

/-- Python dict access graph.get(v, []). -/
def wgraphGet (g : WGraph V) (v : V) : List V :=
  match g.find? (fun entry => decide (entry.1 = v)) with
  | some entry => entry.2
  | none => []

/-- Python dict access edge_map.get(k). -/
def emGet (em : WEdgeMap V) (k : V × V) : Option ℕ :=
  (em.find? (fun entry => decide (entry.1 = k))).map (fun entry => entry.2)

/-- The forward-else-reverse edge lookup of _count_loops_in_graph lines
1347-1353. -/
def emGetEither (em : WEdgeMap V) (a b : V) : Option ℕ :=
  match emGet em (a, b) with
  | some i => some i
  | none => emGet em (b, a)

/-- Edges belonging to at least one enumerated loop (lines 971-973). -/
def edgesInLoops (allLoops : List (List ℕ)) : List ℕ :=
  allLoops.flatten

/-- The bridge test of lines 978-995 for one normal-geometry entry: has
both endpoint keys, they differ, the edge is in no enumerated loop, and
each endpoint has at least one neighbour other than the other endpoint. -/
def isBridge (allLoops : List (List ℕ)) (graph : WGraph V) (ge : WGeom V) : Bool :=
  match ge.start?, ge.endp? with
  | some s, some t =>
      if s = t then false
      else if ge.idx ∈ edgesInLoops allLoops then false
      else
        decide (0 < ((wgraphGet graph s).filter (fun v => decide (v ≠ t))).length) &&
        decide (0 < ((wgraphGet graph t).filter (fun v => decide (v ≠ s))).length)
  | _, _ => false

/-- _find_bridge_edges (lines 962-999): the indices of the normal
geometry entries passing the bridge test, in list order. -/
def find_bridge_edges (normal : List (WGeom V)) (allLoops : List (List ℕ))
    (graph : WGraph V) : List ℕ :=
  (normal.filter (isBridge allLoops graph)).map WGeom.idx

/-- The issue records built by _phase3_bridge_detection (lines 663-673):
one BRIDGE issue of severity 3 per bridge index. -/
def phase3_bridge_issues (normal : List (WGeom V)) (allLoops : List (List ℕ))
    (graph : WGraph V) : List WIssue :=
  (find_bridge_edges normal allLoops graph).map
    (fun idx => ⟨idx, TopoIssueType.bridge, 3⟩)

/-- Vertex degree (lines 1281-1283): the length of the adjacency entry,
0 for vertices not in the graph. -/
def degreeOf (g : WGraph V) (v : V) : ℕ := (wgraphGet g v).length

/-- The candidate test of lines 1287-1296: both endpoint keys exist and
differ and both have degree strictly greater than 2. -/
def isSubdivisionCandidate (g : WGraph V) (ge : WGeom V) : Bool :=
  match ge.start?, ge.endp? with
  | some s, some t =>
      decide (s ≠ t) && decide (2 < degreeOf g s) && decide (2 < degreeOf g t)
  | _, _ => false

/-- _get_subdivision_candidates (lines 1276-1298). -/
def get_subdivision_candidates (normal : List (WGeom V)) (g : WGraph V) : List ℕ :=
  (normal.filter (isSubdivisionCandidate g)).map WGeom.idx

/-- Insertion into a sorted list of naturals. -/
def insertSorted (x : ℕ) : List ℕ → List ℕ
  | [] => [x]
  | y :: ys => if x ≤ y then x :: y :: ys else y :: insertSorted x ys

/-- The sorted canonical signature of an edge set (line 1358). -/
def sortNat (l : List ℕ) : List ℕ := l.foldr insertSorted []

/-- Set-union with one element, as path_edges | edge_idx. -/
def setInsert (s : List ℕ) (x : ℕ) : List ℕ := if x ∈ s then s else s ++ [x]

/-- The DFS of _count_loops_in_graph (lines 1343-1368), threading the
shared visited_edges signature set; the recursion is fuel-bounded and the
source bounds the path length by 8 (line 1364), so fuel 8 is exact. -/
def dfsCycleCount (g : WGraph V) (em : WEdgeMap V) :
    ℕ → V → V → List V → List ℕ → List (List ℕ) → List (List ℕ)
  | 0, _, _, _, _, visited => visited
  | fuel + 1, startV, curV, path, pathEdges, visited =>
      (wgraphGet g curV).foldl
        (fun vis nextV =>
          if 1 < path.length ∧ path.get? (path.length - 2) = some nextV then vis
          else
            match emGetEither em curV nextV with
            | none => vis
            | some eIdx =>
                if eIdx ∈ pathEdges then vis
                else if nextV = startV ∧ 2 ≤ pathEdges.length then
                  let sig := sortNat (setInsert pathEdges eIdx)
                  if sig ∈ vis then vis else vis ++ [sig]
                else if nextV ∉ path ∧ path.length < 8 then
                  dfsCycleCount g em fuel startV nextV (path ++ [nextV])
                    (setInsert pathEdges eIdx) vis
                else vis)
        visited

/-- _count_loops_in_graph (lines 1334-1370): the loop counter increments
exactly when a new signature enters visited_edges, so the count is the
size of the final signature set. -/
def count_loops_in_graph (g : WGraph V) (em : WEdgeMap V) : ℕ :=
  (g.foldl
    (fun vis entry => dfsCycleCount g em 8 entry.1 entry.1 [entry.1] [] vis)
    []).length

/-- The neighbour-list removal of _test_edge_removal lines 1316-1319:
list.remove drops the first occurrence; the defaultdict access creates an
empty entry when the key is missing. -/
def eraseNeighbor (g : WGraph V) (v w : V) : WGraph V :=
  if g.any (fun entry => decide (entry.1 = v)) then
    g.map (fun entry => if entry.1 = v then (entry.1, entry.2.erase w) else entry)
  else g ++ [(v, [])]

/-- The temporary connectivity of _test_edge_removal lines 1308-1324:
the adjacency without the edge and the edge map without its index. -/
def removeEdgeFromConnectivity (g : WGraph V) (em : WEdgeMap V) (s t : V)
    (geoIdx : ℕ) : WGraph V × WEdgeMap V :=
  (eraseNeighbor (eraseNeighbor g s t) t s,
   em.filter (fun entry => decide (entry.2 ≠ geoIdx)))

/-- _test_edge_removal (lines 1300-1332): the geometry is looked up by
index (the python generator raises when the index is absent; callers only
pass candidate indices, which are present, so the embedding returns 0 on
that dead branch) and the loop reduction is the original count minus the
recount on the reduced connectivity. -/
def test_edge_removal (normal : List (WGeom V)) (g : WGraph V) (em : WEdgeMap V)
    (geoIdx : ℕ) (originalLoopCount : ℕ) : ℤ :=
  match normal.find? (fun ge => decide (ge.idx = geoIdx)) with
  | none => 0
  | some ge =>
      match ge.start?, ge.endp? with
      | some s, some t =>
          let p := removeEdgeFromConnectivity g em s t geoIdx
          (originalLoopCount : ℤ) - (count_loops_in_graph p.1 p.2 : ℤ)
      | _, _ => 0

/-- _find_subdivision_edges_clean (lines 1077-1102): nothing is reported
when no loop was enumerated; otherwise the candidates whose removal
strictly reduces the loop count, in candidate order. -/
def find_subdivision_edges_clean (normal : List (WGeom V)) (g : WGraph V)
    (em : WEdgeMap V) (allLoops : List (List ℕ)) : List ℕ :=
  if allLoops.length = 0 then []
  else
    (get_subdivision_candidates normal g).filter
      (fun idx => decide (0 < test_edge_removal normal g em idx allLoops.length))

/-- _calculate_loop_perimeter (lines 1104-1115): the host length call is
the parameter geomLen; indices outside the geometry list or entries
without a readable length contribute nothing. -/
def calculate_loop_perimeter (nGeo : ℕ) (geomLen : ℕ → Option ℚ)
    (loop : List ℕ) : ℚ :=
  loop.foldl
    (fun total i =>
      if i < nGeo then
        match geomLen i with
        | some len => ratAdd total len
        | none => total
      else total)
    (mkRat 0 1)

/-- The vertex list of a loop (lines 1206-1215): the rounded endpoints of
its member geometries, as a duplicate-free list. -/
def loopVertices (normal : List (WGeom V)) (loop : List ℕ) : List V :=
  loop.foldl
    (fun acc i =>
      match normal.find? (fun ge => decide (ge.idx = i)) with
      | some ge =>
          let acc1 := match ge.start? with
            | some s => if s ∈ acc then acc else acc ++ [s]
            | none => acc
          match ge.endp? with
          | some t => if t ∈ acc1 then acc1 else acc1 ++ [t]
          | none => acc1
      | none => acc)
    []

/-- Loop adjacency: two loops share a vertex. The vertex_to_loops map of
lines 1205-1219 realises exactly this relation. -/
def loopsShareVertex (normal : List (WGeom V)) (la lb : List ℕ) : Bool :=
  (loopVertices normal la).any (fun v => decide (v ∈ loopVertices normal lb))

/-- The DFS of dfs_loops (lines 1225-1246) over loop indices, collecting
one connected component; python iterates shared-vertex neighbours in set
order, which only permutes members inside a component, so the embedding
visits them in index order. -/
def dfsLoops (normal : List (WGeom V)) (allLoops : List (List ℕ)) :
    ℕ → ℕ → List ℕ × List ℕ → List ℕ × List ℕ
  | 0, _, st => st
  | fuel + 1, loopIdx, st =>
      if loopIdx ∈ st.1 then st
      else
        (List.range allLoops.length).foldl
          (fun st2 j =>
            if j ∈ st2.1 then st2
            else if loopsShareVertex normal (allLoops.getD loopIdx [])
                (allLoops.getD j []) then
              dfsLoops normal allLoops fuel j st2
            else st2)
          (st.1 ++ [loopIdx], st.2 ++ [loopIdx])

/-- _find_loop_groups (lines 1199-1264): connected components of the
shared-vertex relation, components ordered by smallest member index, each
component listing its loops (as loop value lists). -/
def find_loop_groups (normal : List (WGeom V)) (allLoops : List (List ℕ)) :
    List (List (List ℕ)) :=
  ((List.range allLoops.length).foldl
    (fun (st : List ℕ × List (List (List ℕ))) i =>
      if i ∈ st.1 then st
      else
        let r := dfsLoops normal allLoops allLoops.length i (st.1, [])
        (r.1, st.2 ++ [r.2.map (fun j => allLoops.getD j [])]))
    ([], [])).2

/-- The weak/strong verdict of _get_subdivision_confidence. -/
inductive SubdivConfidence
  | weak
  | strong
deriving DecidableEq

/-- Python max(..., key=perimeter) over a loop list: the first loop of
maximal perimeter (line 1168). -/
def maxByPerimeter (nGeo : ℕ) (geomLen : ℕ → Option ℚ) :
    List (List ℕ) → Option (List ℕ)
  | [] => none
  | l :: ls =>
      some (ls.foldl
        (fun best cand =>
          if ratLtB (calculate_loop_perimeter nGeo geomLen best)
              (calculate_loop_perimeter nGeo geomLen cand) = true then cand
          else best)
        l)

/-- The scan of lines 1171-1178: the first loop, among the containing
loops that lie in the group, of maximal perimeter, starting from
edge_max_perimeter 0 with strict improvement. -/
def edgeLargestLoop (nGeo : ℕ) (geomLen : ℕ → Option ℚ)
    (containing groupLoops : List (List ℕ)) : Option (List ℕ) :=
  (containing.foldl
    (fun (best : Option (List ℕ) × ℚ) loop =>
      if loop ∈ groupLoops then
        let per := calculate_loop_perimeter nGeo geomLen loop
        if ratLtB best.2 per = true then (some loop, per) else best
      else best)
    (none, mkRat 0 1)).1

/-- _get_subdivision_confidence (lines 1125-1196), reduced to the
weak/strong verdict: weak when the edge is in no loop, when no group is
found, when the group is empty, or when the largest loop the edge
participates in inside its group IS the group largest loop; strong
otherwise (including the None comparison of line 1191 when the scan never
fired). -/
def get_subdivision_confidence (nGeo : ℕ) (geomLen : ℕ → Option ℚ)
    (normal : List (WGeom V)) (geoIdx : ℕ) (allLoops : List (List ℕ)) :
    SubdivConfidence :=
  let containing := allLoops.filter (fun loop => decide (geoIdx ∈ loop))
  if containing = [] then SubdivConfidence.weak
  else
    let groups := find_loop_groups normal allLoops
    match groups.findIdx? (fun gl => containing.any (fun loop => decide (loop ∈ gl))) with
    | none => SubdivConfidence.weak
    | some gi =>
        let groupLoops := groups.getD gi []
        if groupLoops = [] then SubdivConfidence.weak
        else
          match maxByPerimeter nGeo geomLen groupLoops,
              edgeLargestLoop nGeo geomLen containing groupLoops with
          | some largest, some edgeLargest =>
              if edgeLargest = largest then SubdivConfidence.weak
              else SubdivConfidence.strong
          | some _, none => SubdivConfidence.strong
          | none, _ => SubdivConfidence.weak

/-! ### Concrete inputs for claims C3, C5 and C6 -/

/-- A sample issue recorded by phase 1 before its exception point. -/
def issueEx : WIssue := ⟨0, TopoIssueType.isolation, 2⟩

/-- An analyzer run whose phase 1 raises after recording one issue. -/
def runEx : AnalyzerRun :=
  ⟨none, ⟨[issueEx], some "constraint map build failed"⟩,
   ⟨[], none⟩, ⟨[], none⟩, ⟨[], none⟩, ⟨[], none⟩, ⟨[], none⟩⟩

/-- Two triangles joined by one connector edge (claim C5): triangle
vertices 0-1-2 with edges 0,1,2; triangle vertices 3-4-5 with edges
4,5,6; connector edge 3 between vertices 0 and 3. -/
def normalB : List (WGeom ℕ) :=
  [⟨0, some 0, some 1⟩, ⟨1, some 1, some 2⟩, ⟨2, some 2, some 0⟩,
   ⟨3, some 0, some 3⟩,
   ⟨4, some 3, some 4⟩, ⟨5, some 4, some 5⟩, ⟨6, some 5, some 3⟩]

/-- The two triangle loops; the connector is in neither. -/
def allLoopsB : List (List ℕ) := [[0, 1, 2], [4, 5, 6]]

/-- Connectivity of the two-triangle scenario. -/
def graphB : WGraph ℕ :=
  [(0, [1, 2, 3]), (1, [0, 2]), (2, [1, 0]),
   (3, [0, 4, 5]), (4, [3, 5]), (5, [4, 3])]

/-- A rectangle bisected by a chord (claim C6): corners 0, 2, 3, 5 with
midpoints 1 (bottom) and 4 (top); boundary edges 0-5 and chord edge 6
between the two midpoints. -/
def normalR : List (WGeom ℕ) :=
  [⟨0, some 0, some 1⟩, ⟨1, some 1, some 2⟩, ⟨2, some 2, some 3⟩,
   ⟨3, some 3, some 4⟩, ⟨4, some 4, some 5⟩, ⟨5, some 5, some 0⟩,
   ⟨6, some 1, some 4⟩]

/-- Connectivity of the bisected rectangle. -/
def graphR : WGraph ℕ :=
  [(0, [1, 5]), (1, [0, 2, 4]), (2, [1, 3]),
   (3, [2, 4]), (4, [3, 5, 1]), (5, [4, 0])]

/-- Edge map of the bisected rectangle, both directions per edge. -/
def emR : WEdgeMap ℕ :=
  [((0, 1), 0), ((1, 0), 0), ((1, 2), 1), ((2, 1), 1),
   ((2, 3), 2), ((3, 2), 2), ((3, 4), 3), ((4, 3), 3),
   ((4, 5), 4), ((5, 4), 4), ((5, 0), 5), ((0, 5), 5),
   ((1, 4), 6), ((4, 1), 6)]

/-- The enumerated loops of the bisected rectangle: left half, right
half, outer boundary. -/
def allLoopsR : List (List ℕ) := [[0, 6, 4, 5], [1, 2, 3, 6], [0, 1, 2, 3, 4, 5]]

/-- Host geometry lengths of the bisected rectangle: the two long
bottom-left and top-left segments have length 3, every other edge length
1, so the three loop perimeters 8, 4 and 10 are pairwise distinct. -/
def geomLenR : ℕ → Option ℚ := fun i =>
  if i = 0 ∨ i = 4 then some (mkRat 3 1)
  else if i < 7 then some (mkRat 1 1) else none

end WireDoctor

/-! ## Theorems

Everything above is definitions; from here on, proofs. -/

theorem ratSub_eq (a b : ℚ) : ratSub a b = a - b := by
  rw [ratSub, Rat.sub_def, Rat.normalize_eq_mkRat]

theorem ratAdd_eq (a b : ℚ) : ratAdd a b = a + b := by
  rw [ratAdd, Rat.add_def, Rat.normalize_eq_mkRat]

theorem ratMul_eq (a b : ℚ) : ratMul a b = a * b := by
  rw [ratMul, Rat.mul_def, Rat.normalize_eq_mkRat]

theorem ratAbs_eq (a : ℚ) : ratAbs a = |a| := by
  rcases le_or_lt 0 a.num with h | h
  · rw [ratAbs, Int.natAbs_of_nonneg h, Rat.mkRat_self,
      abs_of_nonneg (Rat.num_nonneg.mp h)]
  · have hneg : a < 0 := by
      by_contra hc
      exact absurd (Rat.num_nonneg.mpr (not_lt.mp hc)) (not_le.mpr h)
    rw [ratAbs, Int.ofNat_natAbs_of_nonpos h.le, abs_of_neg hneg,
      Rat.mkRat_eq_div]
    push_cast
    rw [neg_div, Rat.num_div_den]

theorem ratLtB_eq (a b : ℚ) : ratLtB a b = decide (a < b) := by
  simp only [ratLtB, decide_eq_decide]
  exact (Rat.lt_def).symm

theorem ratLeB_eq (a b : ℚ) : ratLeB a b = decide (a ≤ b) := by
  simp only [ratLeB, decide_eq_decide]
  exact (Rat.le_def).symm

theorem ratLtB_iff (a b : ℚ) : ratLtB a b = true ↔ a < b := by
  rw [ratLtB_eq]; exact decide_eq_true_iff

theorem ratLeB_iff (a b : ℚ) : ratLeB a b = true ↔ a ≤ b := by
  rw [ratLeB_eq]; exact decide_eq_true_iff

namespace SketchReProfile

variable {V : Type} [DecidableEq V]

/-- The closeness test agrees with the textbook statement over ℚ. -/
theorem closePt_iff (tol : ℚ) (pt p : Pt) :
    closePt tol pt p = true ↔ |pt.1 - p.1| < tol ∧ |pt.2 - p.2| < tol := by
  simp [closePt, ratSub_eq, ratAbs_eq, ratLtB_iff]

theorem extract_edge_data_foldl_init (geoms : List SketchGeom) (data : List EdgeData) :
    geoms.foldl
      (fun data geo =>
        match geo with
        | .lineSegment s e => data ++ [.line s e]
        | .arcOfCircle s e c r => data ++ [.arc s e c r]
        | _ => data)
      data = data ++ geoms.filterMap edgeRecordOf := by
  induction geoms generalizing data with
  | nil => simp
  | cons g gs ih =>
      cases g <;> simp [List.filterMap_cons, edgeRecordOf, ih, List.append_assoc]

/-- Soundness of the candidate scan: whatever it returns satisfies every
acceptance condition of lines 378-381. -/
theorem colinearCandidate_sound (angleOf : REdge V → ℚ) (lookup : RLookup V)
    (angleTol : ℚ) (used : List ℕ) (base : ℚ) (cur : V) :
    ∀ (cands : List V) (e : REdge V) (v : V),
      colinearCandidate angleOf lookup angleTol used base cur cands = some (e, v) →
      v ∈ cands ∧ v ≠ cur ∧ getEdgeBetween lookup cur v = some e ∧
        e.eid ∉ used ∧ e.etype = EType.line ∧ |angleOf e - base| ≤ angleTol
  | [], e, v => by simp [colinearCandidate]
  | cv :: rest, e, v => by
      intro h
      rw [colinearCandidate] at h
      by_cases hcv : cv = cur
      · rw [if_pos hcv] at h
        obtain ⟨h1, h2⟩ := colinearCandidate_sound angleOf lookup angleTol used base cur
          rest e v h
        exact ⟨List.mem_cons_of_mem _ h1, h2⟩
      · rw [if_neg hcv] at h
        split at h
        next ce hg =>
          split at h
          next hcond =>
            obtain ⟨rfl, rfl⟩ : ce = e ∧ cv = v := by
              have hpair := Option.some.inj h
              exact ⟨congrArg Prod.fst hpair, congrArg Prod.snd hpair⟩
            refine ⟨List.mem_cons_self _ _, hcv, hg, hcond.1, hcond.2.1, ?_⟩
            have hle := hcond.2.2
            rwa [ratSub_eq, ratAbs_eq, ratLeB_iff] at hle
          next hcond =>
            obtain ⟨h1, h2⟩ := colinearCandidate_sound angleOf lookup angleTol used base cur
              rest e v h
            exact ⟨List.mem_cons_of_mem _ h1, h2⟩
        next hg =>
          obtain ⟨h1, h2⟩ := colinearCandidate_sound angleOf lookup angleTol used base cur
            rest e v h
          exact ⟨List.mem_cons_of_mem _ h1, h2⟩

/-- Completeness companion of the candidate scan: a colinear continuation
is found precisely when some neighbour qualifies. -/
theorem colinearCandidate_isSome_iff (angleOf : REdge V → ℚ) (lookup : RLookup V)
    (angleTol : ℚ) (used : List ℕ) (base : ℚ) (cur : V) :
    ∀ cands : List V,
      (∃ p, colinearCandidate angleOf lookup angleTol used base cur cands = some p) ↔
      ∃ v ∈ cands, v ≠ cur ∧ ∃ e, getEdgeBetween lookup cur v = some e ∧
        e.eid ∉ used ∧ e.etype = EType.line ∧ |angleOf e - base| ≤ angleTol
  | [] => by simp [colinearCandidate]
  | cv :: rest => by
      rw [colinearCandidate]
      by_cases hcv : cv = cur
      · rw [if_pos hcv]
        rw [colinearCandidate_isSome_iff angleOf lookup angleTol used base cur rest]
        constructor
        · rintro ⟨v, hv, rest1⟩
          exact ⟨v, List.mem_cons_of_mem _ hv, rest1⟩
        · rintro ⟨v, hv, hne, rest1⟩
          rcases List.mem_cons.mp hv with rfl | hv
          · exact absurd hcv hne
          · exact ⟨v, hv, hne, rest1⟩
      · rw [if_neg hcv]
        split
        next ce hg =>
          split
          next hcond =>
            constructor
            · intro _
              refine ⟨cv, List.mem_cons_self _ _, hcv, ce, hg, hcond.1, hcond.2.1, ?_⟩
              have hle := hcond.2.2
              rwa [ratSub_eq, ratAbs_eq, ratLeB_iff] at hle
            · intro _
              exact ⟨(ce, cv), rfl⟩
          next hcond =>
            rw [colinearCandidate_isSome_iff angleOf lookup angleTol used base cur rest]
            constructor
            · rintro ⟨v, hv, rest1⟩
              exact ⟨v, List.mem_cons_of_mem _ hv, rest1⟩
            · rintro ⟨v, hv, hne, e, he, hu, ht, ha⟩
              rcases List.mem_cons.mp hv with rfl | hv
              · rw [hg] at he
                obtain rfl : ce = e := Option.some.inj he
                rw [ratSub_eq, ratAbs_eq, ratLeB_iff] at hcond
                exact absurd ⟨hu, ht, ha⟩ hcond
              · exact ⟨v, hv, hne, e, he, hu, ht, ha⟩
        next hg =>
          rw [colinearCandidate_isSome_iff angleOf lookup angleTol used base cur rest]
          constructor
          · rintro ⟨v, hv, rest1⟩
            exact ⟨v, List.mem_cons_of_mem _ hv, rest1⟩
          · rintro ⟨v, hv, hne, e, he, hu, ht, ha⟩
            rcases List.mem_cons.mp hv with rfl | hv
            · rw [hg] at he
              exact absurd he (by simp)
            · exact ⟨v, hv, hne, e, he, hu, ht, ha⟩

/-- The directional walk only appends qualifying edges and claims exactly
the identities of the edges it appends. -/
theorem colinearExtend_delta (angleOf : REdge V → ℚ) (graph : RGraph V)
    (lookup : RLookup V) (angleTol : ℚ) :
    ∀ (fuel : ℕ) (run : List (REdge V)) (used : List ℕ) (base : ℚ) (cur : V),
      ∃ d : List (REdge V),
        colinearExtend angleOf graph lookup angleTol fuel run used base cur =
          (run ++ d, used ++ d.map REdge.eid) ∧
        ∀ x ∈ d, x.etype = EType.line ∧ |angleOf x - base| ≤ angleTol ∧ x.eid ∉ used
  | 0, run, used, base, cur => ⟨[], by simp [colinearExtend], by simp⟩
  | fuel + 1, run, used, base, cur => by
      rw [colinearExtend]
      split
      next hc => exact ⟨[], by simp, by simp⟩
      next e v hc =>
        obtain ⟨hmem, hne, hlk, hu, ht, ha⟩ :=
          colinearCandidate_sound angleOf lookup angleTol used base cur _ e v hc
        obtain ⟨d, hd, hprops⟩ :=
          colinearExtend_delta angleOf graph lookup angleTol fuel
            (run ++ [e]) (used ++ [e.eid]) base v
        refine ⟨e :: d, ?_, ?_⟩
        · rw [hd]
          simp
        · intro x hx
          rcases List.mem_cons.mp hx with rfl | hx
          · exact ⟨ht, ha, hu⟩
          · obtain ⟨p1, p2, p3⟩ := hprops x hx
            exact ⟨p1, p2, fun hmem1 => p3 (List.mem_append_left _ hmem1)⟩

/-- One seed round produces its seed followed by qualifying extensions and
claims exactly the identities of the produced run. -/
theorem colinearSeed_spec (angleOf : REdge V → ℚ) (graph : RGraph V)
    (lookup : RLookup V) (angleTol : ℚ) (fuel : ℕ) (used : List ℕ) (e : REdge V) :
    ∃ d : List (REdge V),
      colinearSeed angleOf graph lookup angleTol fuel used e =
        (e :: d, used ++ (e :: d).map REdge.eid) ∧
      (∀ x ∈ d, x.etype = EType.line ∧ |angleOf x - angleOf e| ≤ angleTol) ∧
      (∀ x ∈ d, x.eid ∉ used) := by
  obtain ⟨d1, hd1, hp1⟩ := colinearExtend_delta angleOf graph lookup angleTol fuel
    [e] (used ++ [e.eid]) (angleOf e) e.start
  obtain ⟨d2, hd2, hp2⟩ := colinearExtend_delta angleOf graph lookup angleTol fuel
    ([e] ++ d1) (used ++ [e.eid] ++ d1.map REdge.eid) (angleOf e) e.endp
  refine ⟨d1 ++ d2, ?_, ?_, ?_⟩
  · rw [colinearSeed, hd1]
    simpa [List.append_assoc] using hd2
  · intro x hx
    rcases List.mem_append.mp hx with hx | hx
    · exact ⟨(hp1 x hx).1, (hp1 x hx).2.1⟩
    · exact ⟨(hp2 x hx).1, (hp2 x hx).2.1⟩
  · intro x hx
    rcases List.mem_append.mp hx with hx | hx
    · exact fun hmem => (hp1 x hx).2.2 (List.mem_append_left _ hmem)
    · exact fun hmem => (hp2 x hx).2.2
        (List.mem_append_left _ (List.mem_append_left _ hmem))

/-- One step of the seed loop preserves the C9 invariant: all kept runs
are long enough and well formed, and the claimed identities are exactly
the identities of the kept runs. -/
theorem colinearStep_inv (angleOf : REdge V → ℚ) (graph : RGraph V)
    (lookup : RLookup V) (angleTol : ℚ) (hTol : 0 ≤ angleTol) (minRun fuel : ℕ)
    (st : List (List (REdge V)) × List ℕ) (e : REdge V)
    (h1 : ∀ run ∈ st.1, minRun ≤ run.length ∧ goodRun angleOf angleTol run)
    (h2 : st.2 = st.1.flatMap (fun r => r.map REdge.eid)) :
    (∀ run ∈ (colinearStep angleOf graph lookup angleTol minRun fuel st e).1,
        minRun ≤ run.length ∧ goodRun angleOf angleTol run) ∧
    (colinearStep angleOf graph lookup angleTol minRun fuel st e).2 =
      (colinearStep angleOf graph lookup angleTol minRun fuel st e).1.flatMap
        (fun r => r.map REdge.eid) := by
  rw [colinearStep]
  by_cases hskip : e.eid ∈ st.2 ∨ e.etype ≠ EType.line
  · rw [if_pos hskip]
    exact ⟨h1, h2⟩
  · rw [if_neg hskip]
    push_neg at hskip
    obtain ⟨hnot, hline⟩ := hskip
    obtain ⟨d, hd, hgood, hfresh⟩ :=
      colinearSeed_spec angleOf graph lookup angleTol fuel st.2 e
    rw [hd]
    by_cases hlen : minRun ≤ (e :: d).length
    · rw [if_pos hlen]
      refine ⟨?_, ?_⟩
      · intro run hrun
        rcases List.mem_append.mp hrun with hrun | hrun
        · exact h1 run hrun
        · obtain rfl : run = e :: d := List.mem_singleton.mp hrun
          refine ⟨hlen, e, rfl, ?_⟩
          intro x hx
          rcases List.mem_cons.mp hx with rfl | hx
          · simpa using ⟨hline, hTol⟩
          · exact hgood x hx
      · simp [List.flatMap_append, h2]
    · rw [if_neg hlen]
      refine ⟨h1, ?_⟩
      have hkeep : ∀ i ∈ st.2, i ∉ (e :: d).map REdge.eid := by
        intro i hi hmemi
        rcases List.mem_map.mp hmemi with ⟨x, hx, rfl⟩
        rcases List.mem_cons.mp hx with rfl | hx
        · exact hnot hi
        · exact hfresh x hx hi
      have hself : ∀ i ∈ st.2,
          (decide (i ∉ (e :: d).map REdge.eid) : Bool) = true := by
        intro i hi
        simpa using hkeep i hi
      have hnil : List.filter (fun i => decide (i ∉ (e :: d).map REdge.eid))
          ((e :: d).map REdge.eid) = [] := by
        rw [List.filter_eq_nil_iff]
        intro i hi
        simp only [decide_eq_true_eq, Decidable.not_not]
        exact hi
      rw [List.filter_append, List.filter_eq_self.mpr hself, hnil, List.append_nil]
      exact h2

/-- The seed loop over any seed list preserves the C9 invariant. -/
theorem colinearFold_inv (angleOf : REdge V → ℚ) (graph : RGraph V)
    (lookup : RLookup V) (angleTol : ℚ) (hTol : 0 ≤ angleTol) (minRun fuel : ℕ) :
    ∀ (unused : List (REdge V)) (st : List (List (REdge V)) × List ℕ),
      (∀ run ∈ st.1, minRun ≤ run.length ∧ goodRun angleOf angleTol run) →
      st.2 = st.1.flatMap (fun r => r.map REdge.eid) →
      (∀ run ∈ (unused.foldl (colinearStep angleOf graph lookup angleTol minRun fuel) st).1,
          minRun ≤ run.length ∧ goodRun angleOf angleTol run) ∧
      (unused.foldl (colinearStep angleOf graph lookup angleTol minRun fuel) st).2 =
        (unused.foldl (colinearStep angleOf graph lookup angleTol minRun fuel) st).1.flatMap
          (fun r => r.map REdge.eid)
  | [], st, h1, h2 => ⟨h1, h2⟩
  | e :: rest, st, h1, h2 => by
      obtain ⟨g1, g2⟩ := colinearStep_inv angleOf graph lookup angleTol hTol minRun fuel
        st e h1 h2
      exact colinearFold_inv angleOf graph lookup angleTol hTol minRun fuel rest _ g1 g2

/-- The greedy walk appends at most one vertex per unit of fuel. -/
theorem polyWalk_length (graph : RGraph V) (v : V) :
    ∀ (fuel : ℕ) (cur : V) (prev : Option V) (poly visited : List V),
      (polyWalk graph v fuel cur prev poly visited).1.length ≤ poly.length + fuel
  | 0, cur, prev, poly, visited => by simp [polyWalk]
  | fuel + 1, cur, prev, poly, visited => by
      simp only [polyWalk]
      generalize (graphGet graph cur).filter (fun n => decide (some n ≠ prev)) = nb
      cases nb with
      | nil =>
          simp only [List.length_append, List.length_singleton]
          omega
      | cons n tail =>
          dsimp only
          by_cases hnv : n = v ∧ 3 ≤ (poly ++ [cur]).length
          · rw [if_pos hnv]
            simp only [List.length_append, List.length_singleton]
            omega
          · rw [if_neg hnv]
            have h := polyWalk_length graph v fuel n (some cur) (poly ++ [cur])
              (if cur ∈ visited then visited else visited ++ [cur])
            simp only [List.length_append, List.length_singleton] at h ⊢
            omega

/-- One outer-loop iteration preserves the C7 guarantees on kept
polygons. -/
theorem detectStep_inv (graph : RGraph V) (lookup : RLookup V)
    (st : List (RPoly V) × List V) (entry : V × List V)
    (h : ∀ p ∈ st.1, 3 ≤ p.vertices.length ∧ p.vertices.length ≤ 100 ∧ p.edges ≠ []) :
    ∀ p ∈ (detectStep graph lookup st entry).1,
      3 ≤ p.vertices.length ∧ p.vertices.length ≤ 100 ∧ p.edges ≠ [] := by
  simp only [detectStep]
  split
  · exact h
  · split
    next hlen =>
      split
      next hes =>
        intro p hp
        rcases List.mem_append.mp hp with hp | hp
        · exact h p hp
        · obtain rfl := List.mem_singleton.mp hp
          refine ⟨hlen, ?_, hes⟩
          have hw := polyWalk_length graph entry.1 100 entry.1 none [] st.2
          simpa using hw
      next => exact h
    next => exact h

/-- The outer loop over any entry list preserves the C7 guarantees. -/
theorem detectFold_inv (graph : RGraph V) (lookup : RLookup V) :
    ∀ (entries : List (V × List V)) (st : List (RPoly V) × List V),
      (∀ p ∈ st.1, 3 ≤ p.vertices.length ∧ p.vertices.length ≤ 100 ∧ p.edges ≠ []) →
      ∀ p ∈ (entries.foldl (detectStep graph lookup) st).1,
        3 ≤ p.vertices.length ∧ p.vertices.length ≤ 100 ∧ p.edges ≠ []
  | [], _, h => h
  | entry :: rest, st, h =>
      detectFold_inv graph lookup rest _ (detectStep_inv graph lookup st entry h)

end SketchReProfile

namespace WireDoctor

variable {V : Type} [DecidableEq V]

/-- ratFloor is the floor: it sits at most one below its rational. -/
theorem ratFloor_bounds (q : ℚ) : (ratFloor q : ℚ) ≤ q ∧ q < ratFloor q + 1 := by
  have hden : (0 : ℤ) < (q.den : ℤ) := by exact_mod_cast q.pos
  have hdecomp : (q.den : ℤ) * ratFloor q + Int.fmod q.num (q.den : ℤ) = q.num :=
    Int.fdiv_add_fmod q.num (q.den : ℤ)
  have hr0 : 0 ≤ Int.fmod q.num (q.den : ℤ) := Int.fmod_nonneg' q.num hden
  have hr1 : Int.fmod q.num (q.den : ℤ) < (q.den : ℤ) := Int.fmod_lt_of_pos q.num hden
  constructor
  · conv_rhs => rw [← Rat.num_div_den q]
    rw [le_div_iff₀ (by positivity)]
    have h : ratFloor q * (q.den : ℤ) ≤ q.num := by nlinarith
    exact_mod_cast h
  · conv_lhs => rw [← Rat.num_div_den q]
    rw [div_lt_iff₀ (by positivity)]
    have h : q.num < (ratFloor q + 1) * (q.den : ℤ) := by nlinarith
    exact_mod_cast h

/-- Round half to even lands within half a unit of its argument. -/
theorem pyRound_half (q : ℚ) : |q - (pyRound q : ℚ)| ≤ 1 / 2 := by
  obtain ⟨hle, hlt⟩ := ratFloor_bounds q
  have hm1 : (mkRat (ratFloor q) 1 : ℚ) = (ratFloor q : ℚ) := by
    rw [Rat.mkRat_eq_div]
    simp
  have hsub : ratSub q (mkRat (ratFloor q) 1) = q - (ratFloor q : ℚ) := by
    rw [ratSub_eq, hm1]
  have h12 : (mkRat 1 2 : ℚ) = 1 / 2 := by
    rw [Rat.mkRat_eq_div]
    norm_num
  simp only [pyRound]
  by_cases h1 : ratLtB (ratSub q (mkRat (ratFloor q) 1)) (mkRat 1 2) = true
  · rw [if_pos h1]
    rw [ratLtB_iff, hsub, h12] at h1
    rw [abs_of_nonneg (by linarith)]
    linarith
  · rw [if_neg h1]
    rw [ratLtB_iff, hsub, h12] at h1
    push_neg at h1
    by_cases h2 : ratLtB (mkRat 1 2) (ratSub q (mkRat (ratFloor q) 1)) = true
    · rw [if_pos h2]
      rw [ratLtB_iff, hsub, h12] at h2
      push_cast
      rw [abs_of_nonpos (by linarith)]
      linarith
    · rw [if_neg h2]
      rw [ratLtB_iff, hsub, h12] at h2
      push_neg at h2
      have heq : q - (ratFloor q : ℚ) = 1 / 2 := le_antisymm h2 h1
      by_cases h3 : ratFloor q % 2 = 0
      · rw [if_pos h3, abs_of_nonneg (by linarith)]
        linarith
      · rw [if_neg h3]
        push_cast
        rw [abs_of_nonpos (by linarith)]
        linarith

/-- roundTo in terms of the standard field operations. -/
theorem roundTo_eq (d : ℕ) (q : ℚ) :
    roundTo d q = ((pyRound (q * 10 ^ d) : ℤ) : ℚ) / 10 ^ d := by
  have hm : ratMul q (mkRat ((10 : ℤ) ^ d) 1) = q * 10 ^ d := by
    rw [ratMul_eq, Rat.mkRat_eq_div]
    push_cast
    ring
  rw [roundTo, Rat.mkRat_eq_div, hm]
  push_cast
  ring

/-- roundTo d produces a multiple of 10^(-d) within half of that unit. -/
theorem roundTo_props (d : ℕ) (x : ℚ) :
    (∃ a : ℤ, roundTo d x = (a : ℚ) / 10 ^ d) ∧
    |x - roundTo d x| ≤ 1 / (2 * 10 ^ d) := by
  have hpow : (0 : ℚ) < 10 ^ d := by positivity
  refine ⟨⟨pyRound (x * 10 ^ d), roundTo_eq d x⟩, ?_⟩
  have hh := pyRound_half (x * 10 ^ d)
  have hrw : x - roundTo d x =
      (x * 10 ^ d - (pyRound (x * 10 ^ d) : ℚ)) / 10 ^ d := by
    rw [roundTo_eq]
    field_simp
  rw [hrw, abs_div, abs_of_pos hpow, div_le_iff₀ hpow]
  have hhalf : 1 / (2 * 10 ^ d) * (10 ^ d : ℚ) = 1 / 2 := by
    field_simp
    ring
  rw [hhalf]
  exact hh

/-- Membership in the bridge list, characterised entrywise. -/
theorem find_bridge_edges_mem (normal : List (WGeom V)) (allLoops : List (List ℕ))
    (graph : WGraph V) (i : ℕ) :
    i ∈ find_bridge_edges normal allLoops graph ↔
      ∃ ge ∈ normal, isBridge allLoops graph ge = true ∧ ge.idx = i := by
  constructor
  · intro h
    rcases List.mem_map.mp h with ⟨ge, hf, rfl⟩
    rcases List.mem_filter.mp hf with ⟨hmem, hb⟩
    exact ⟨ge, hmem, hb, rfl⟩
  · rintro ⟨ge, hmem, hb, rfl⟩
    exact List.mem_map.mpr ⟨ge, List.mem_filter.mpr ⟨hmem, hb⟩, rfl⟩

/-- The bridge test spelled out for an entry with distinct endpoints. -/
theorem isBridge_iff (allLoops : List (List ℕ)) (graph : WGraph V)
    (ge : WGeom V) (s t : V) (hs : ge.start? = some s) (ht : ge.endp? = some t)
    (hst : s ≠ t) :
    isBridge allLoops graph ge = true ↔
      (∀ loop ∈ allLoops, ge.idx ∉ loop) ∧
      (∃ v ∈ wgraphGet graph s, v ≠ t) ∧ (∃ v ∈ wgraphGet graph t, v ≠ s) := by
  simp only [isBridge, hs, ht]
  rw [if_neg hst]
  by_cases hloop : ge.idx ∈ edgesInLoops allLoops
  · rw [if_pos hloop]
    simp only [Bool.false_eq_true, false_iff]
    rintro ⟨hno, -, -⟩
    rcases List.mem_flatten.mp hloop with ⟨loop, hl, hi⟩
    exact absurd hi (hno loop hl)
  · rw [if_neg hloop]
    have hn : ∀ loop ∈ allLoops, ge.idx ∉ loop := by
      intro loop hl hi
      exact hloop (List.mem_flatten.mpr ⟨loop, hl, hi⟩)
    constructor
    · intro hb
      rw [Bool.and_eq_true, decide_eq_true_eq, decide_eq_true_eq] at hb
      refine ⟨hn, ?_, ?_⟩
      · obtain ⟨v, hv⟩ := List.exists_mem_of_ne_nil _ (List.length_pos.mp hb.1)
        rcases List.mem_filter.mp hv with ⟨hvl, hvp⟩
        exact ⟨v, hvl, by simpa using hvp⟩
      · obtain ⟨v, hv⟩ := List.exists_mem_of_ne_nil _ (List.length_pos.mp hb.2)
        rcases List.mem_filter.mp hv with ⟨hvl, hvp⟩
        exact ⟨v, hvl, by simpa using hvp⟩
    · rintro ⟨-, ⟨v1, hv1, hne1⟩, ⟨v2, hv2, hne2⟩⟩
      rw [Bool.and_eq_true, decide_eq_true_eq, decide_eq_true_eq]
      exact ⟨List.length_pos.mpr
          (List.ne_nil_of_mem (List.mem_filter.mpr ⟨hv1, by simpa using hne1⟩)),
        List.length_pos.mpr
          (List.ne_nil_of_mem (List.mem_filter.mpr ⟨hv2, by simpa using hne2⟩))⟩

/-- In a geometry list with pairwise distinct indices, the find?-by-index
lookup of a member returns that member. -/
theorem wfind_eq (normal : List (WGeom V)) (g : WGeom V)
    (hnodup : (normal.map WGeom.idx).Nodup) (hmem : g ∈ normal) :
    normal.find? (fun ge => decide (ge.idx = g.idx)) = some g := by
  induction normal with
  | nil => cases hmem
  | cons h tl ih =>
      rw [List.map_cons, List.nodup_cons] at hnodup
      rcases List.mem_cons.mp hmem with rfl | hg
      · simp [List.find?_cons]
      · rw [List.find?_cons]
        have hne : (decide (h.idx = g.idx)) = false := by
          simp only [decide_eq_false_iff_not]
          intro he
          apply hnodup.1
          rw [he]
          exact List.mem_map_of_mem WGeom.idx hg
        rw [hne]
        exact ih hnodup.2 hg

/-- In a geometry list with pairwise distinct indices, the index of a
member survives a filter-then-project iff the member passes the filter. -/
theorem mem_map_idx_filter (normal : List (WGeom V)) (p : WGeom V → Bool)
    (g : WGeom V) (hnodup : (normal.map WGeom.idx).Nodup) (hmem : g ∈ normal) :
    g.idx ∈ (normal.filter p).map WGeom.idx ↔ p g = true := by
  constructor
  · intro h
    rcases List.mem_map.mp h with ⟨ge, hgef, hgei⟩
    have hgen : ge ∈ normal := List.mem_of_mem_filter hgef
    have hgeg : ge = g := List.inj_on_of_nodup_map hnodup hgen hmem hgei
    rw [← hgeg]
    exact (List.mem_filter.mp hgef).2
  · intro hp
    exact List.mem_map.mpr ⟨g, List.mem_filter.mpr ⟨hmem, hp⟩, rfl⟩

/-- A left fold stays at a value every list element maps back to itself. -/
theorem foldl_fixed {α β : Type} (f : β → α → β) (t : β) :
    ∀ (l : List α), (∀ x ∈ l, f t x = t) → l.foldl f t = t
  | [], _ => rfl
  | c :: l, h => by
      rw [List.foldl_cons, h c (List.mem_cons_self c l)]
      exact foldl_fixed f t l (fun x hx => h x (List.mem_cons_of_mem c hx))

/-- A left fold reaches the value t: starting inside the invariant P, the
distinguished element a sends any P-state to t, t absorbs every element
of the list, and every other element preserves P. -/
theorem foldl_hits_target {α β : Type} (f : β → α → β) (P : β → Prop)
    (t : β) (a : α) (hat : ∀ b, P b → f b a = t) :
    ∀ (l : List α) (b : β), P b → a ∈ l →
      (∀ x ∈ l, f t x = t) →
      (∀ x ∈ l, ∀ b, P b → x ≠ a → P (f b x)) →
      l.foldl f b = t := by
  intro l
  induction l with
  | nil =>
      intro b _ h _ _
      cases h
  | cons c l ih =>
      intro b hPb hmem habs hkeep
      rw [List.foldl_cons]
      by_cases hca : c = a
      · rw [hca, hat b hPb]
        exact foldl_fixed f t l (fun x hx => habs x (List.mem_cons_of_mem c hx))
      · have hmem2 : a ∈ l := by
          rcases List.mem_cons.mp hmem with h | h
          · exact absurd h.symm hca
          · exact h
        exact ih (f b c)
          (hkeep c (List.mem_cons_self c l) b hPb hca) hmem2
          (fun x hx => habs x (List.mem_cons_of_mem c hx))
          (fun x hx => hkeep x (List.mem_cons_of_mem c hx))

/-- A left fold with a binary-choice step (keep the accumulator or take
the candidate, never decreasing the measure m) lands on a member of the
inputs that m-bounds all of them. -/
theorem foldl_choice_max {α : Type} (m : α → ℚ) (f : α → α → α)
    (hf : ∀ b c, f b c = b ∨ f b c = c)
    (hfb : ∀ b c, m b ≤ m (f b c)) (hfc : ∀ b c, m c ≤ m (f b c)) :
    ∀ (ls : List α) (b : α),
      ls.foldl f b ∈ b :: ls ∧ ∀ x ∈ b :: ls, m x ≤ m (ls.foldl f b)
  | [], b => by
      refine ⟨List.mem_cons_self b [], ?_⟩
      intro x hx
      rcases List.mem_cons.mp hx with rfl | hx2
      · exact le_refl _
      · cases hx2
  | c :: ls, b => by
      rw [List.foldl_cons]
      obtain ⟨hm, hle⟩ := foldl_choice_max m f hf hfb hfc ls (f b c)
      constructor
      · rcases List.mem_cons.mp hm with h2 | h2
        · rw [h2]
          rcases hf b c with h | h
          · rw [h]
            exact List.mem_cons_self b (c :: ls)
          · rw [h]
            exact List.mem_cons_of_mem b (List.mem_cons_self c ls)
        · exact List.mem_cons_of_mem b (List.mem_cons_of_mem c h2)
      · intro x hx
        rcases List.mem_cons.mp hx with rfl | hx2
        · exact le_trans (hfb x c) (hle (f x c) (List.mem_cons_self _ ls))
        · rcases List.mem_cons.mp hx2 with rfl | hx3
          · exact le_trans (hfc b x) (hle (f b x) (List.mem_cons_self _ ls))
          · exact hle x (List.mem_cons_of_mem _ hx3)

/-- When one loop strictly dominates every other loop's perimeter, the
python max of _get_subdivision_confidence returns it. -/
theorem maxByPerimeter_unique_max (nGeo : ℕ) (geomLen : ℕ → Option ℚ)
    (l : List (List ℕ)) (Lstar : List ℕ) (hmem : Lstar ∈ l)
    (hmax : ∀ L ∈ l, L ≠ Lstar →
      calculate_loop_perimeter nGeo geomLen L <
        calculate_loop_perimeter nGeo geomLen Lstar) :
    maxByPerimeter nGeo geomLen l = some Lstar := by
  cases l with
  | nil => cases hmem
  | cons l0 ls =>
      obtain ⟨hm, hle⟩ := foldl_choice_max (calculate_loop_perimeter nGeo geomLen)
        (fun best cand =>
          if ratLtB (calculate_loop_perimeter nGeo geomLen best)
              (calculate_loop_perimeter nGeo geomLen cand) = true then cand
          else best)
        (fun b c => by
          show (if ratLtB (calculate_loop_perimeter nGeo geomLen b)
              (calculate_loop_perimeter nGeo geomLen c) = true then c else b) = b ∨
            (if ratLtB (calculate_loop_perimeter nGeo geomLen b)
              (calculate_loop_perimeter nGeo geomLen c) = true then c else b) = c
          by_cases h : ratLtB (calculate_loop_perimeter nGeo geomLen b)
              (calculate_loop_perimeter nGeo geomLen c) = true
          · rw [if_pos h]
            right
            rfl
          · rw [if_neg h]
            left
            rfl)
        (fun b c => by
          show calculate_loop_perimeter nGeo geomLen b ≤
            calculate_loop_perimeter nGeo geomLen
              (if ratLtB (calculate_loop_perimeter nGeo geomLen b)
                  (calculate_loop_perimeter nGeo geomLen c) = true then c else b)
          by_cases h : ratLtB (calculate_loop_perimeter nGeo geomLen b)
              (calculate_loop_perimeter nGeo geomLen c) = true
          · rw [if_pos h]
            exact le_of_lt ((ratLtB_iff _ _).mp h)
          · rw [if_neg h])
        (fun b c => by
          show calculate_loop_perimeter nGeo geomLen c ≤
            calculate_loop_perimeter nGeo geomLen
              (if ratLtB (calculate_loop_perimeter nGeo geomLen b)
                  (calculate_loop_perimeter nGeo geomLen c) = true then c else b)
          by_cases h : ratLtB (calculate_loop_perimeter nGeo geomLen b)
              (calculate_loop_perimeter nGeo geomLen c) = true
          · rw [if_pos h]
          · rw [if_neg h]
            exact le_of_not_lt (fun hlt => h ((ratLtB_iff _ _).mpr hlt)))
        ls l0
      simp only [maxByPerimeter]
      congr 1
      by_contra hne
      exact absurd (hmax _ hm hne) (not_lt.mpr (hle Lstar hmem))

/-- When one containing loop inside the group strictly dominates the
perimeter of every other containing loop of the group and is itself of
positive perimeter, the strict-improvement scan of
_get_subdivision_confidence returns it. -/
theorem edgeLargestLoop_eq (nGeo : ℕ) (geomLen : ℕ → Option ℚ)
    (containing groupLoops : List (List ℕ)) (Mstar : List ℕ)
    (hMcont : Mstar ∈ containing) (hMgrp : Mstar ∈ groupLoops)
    (hMpos : 0 < calculate_loop_perimeter nGeo geomLen Mstar)
    (hall : ∀ L ∈ containing, L ∈ groupLoops → L ≠ Mstar →
      calculate_loop_perimeter nGeo geomLen L <
        calculate_loop_perimeter nGeo geomLen Mstar) :
    edgeLargestLoop nGeo geomLen containing groupLoops = some Mstar := by
  have key : containing.foldl
      (fun (best : Option (List ℕ) × ℚ) loop =>
        if loop ∈ groupLoops then
          let per := calculate_loop_perimeter nGeo geomLen loop
          if ratLtB best.2 per = true then (some loop, per) else best
        else best)
      (none, mkRat 0 1) =
      (some Mstar, calculate_loop_perimeter nGeo geomLen Mstar) := by
    refine foldl_hits_target _
      (fun b : Option (List ℕ) × ℚ =>
        b.2 < calculate_loop_perimeter nGeo geomLen Mstar)
      _ Mstar ?_ containing (none, mkRat 0 1) ?_ hMcont ?_ ?_
    · intro b hb
      show (if Mstar ∈ groupLoops then
          if ratLtB b.2 (calculate_loop_perimeter nGeo geomLen Mstar) = true then
            (some Mstar, calculate_loop_perimeter nGeo geomLen Mstar)
          else b
        else b) =
        (some Mstar, calculate_loop_perimeter nGeo geomLen Mstar)
      rw [if_pos hMgrp, if_pos ((ratLtB_iff _ _).mpr hb)]
    · show (mkRat 0 1 : ℚ) < calculate_loop_perimeter nGeo geomLen Mstar
      have h0 : (mkRat 0 1 : ℚ) = 0 := by
        rw [Rat.mkRat_eq_div]
        norm_num
      rw [h0]
      exact hMpos
    · intro x hx
      show (if x ∈ groupLoops then
          if ratLtB (calculate_loop_perimeter nGeo geomLen Mstar)
              (calculate_loop_perimeter nGeo geomLen x) = true then
            (some x, calculate_loop_perimeter nGeo geomLen x)
          else (some Mstar, calculate_loop_perimeter nGeo geomLen Mstar)
        else (some Mstar, calculate_loop_perimeter nGeo geomLen Mstar)) =
        (some Mstar, calculate_loop_perimeter nGeo geomLen Mstar)
      by_cases hg : x ∈ groupLoops
      · rw [if_pos hg]
        by_cases hxm : x = Mstar
        · rw [if_neg]
          intro hlt
          rw [hxm] at hlt
          exact lt_irrefl _ ((ratLtB_iff _ _).mp hlt)
        · rw [if_neg]
          intro hlt
          exact absurd ((ratLtB_iff _ _).mp hlt) (not_lt.mpr (le_of_lt (hall x hx hg hxm)))
      · rw [if_neg hg]
    · intro x hx b hb hxm
      show (if x ∈ groupLoops then
          if ratLtB b.2 (calculate_loop_perimeter nGeo geomLen x) = true then
            (some x, calculate_loop_perimeter nGeo geomLen x)
          else b
        else b).2 < calculate_loop_perimeter nGeo geomLen Mstar
      by_cases hg : x ∈ groupLoops
      · rw [if_pos hg]
        by_cases hlt : ratLtB b.2 (calculate_loop_perimeter nGeo geomLen x) = true
        · rw [if_pos hlt]
          exact hall x hx hg hxm
        · rw [if_neg hlt]
          exact hb
      · rw [if_neg hg]
        exact hb
  rw [edgeLargestLoop, key]

end WireDoctor

namespace Claims

open SketchReProfile

open WireDoctor

/-- C1: the greedy first-match grouping of find_connected_vertices is not
transitive. With tolerance 1e-6, the endpoints A = (0,0), B = (9e-7,0),
C = (18e-7,0) satisfy the merge test pairwise along the chain A-B-C, yet
when the edges present the points in the order A, C, A, B the mapping sends
B to the representative of the group of A while C stays its own
representative, so the three points are not in one merged group. -/
theorem C1_vertex_merge_not_transitive :
    mergeTol = 1 / 1000000 ∧
    (|ptA.1 - ptB.1| < mergeTol ∧ |ptA.2 - ptB.2| < mergeTol) ∧
    (|ptB.1 - ptC.1| < mergeTol ∧ |ptB.2 - ptC.2| < mergeTol) ∧
    applyMapping (mappingPairs (find_connected_vertices edgesC1 mergeTol)) ptB ≠
      applyMapping (mappingPairs (find_connected_vertices edgesC1 mergeTol)) ptC := by
  refine ⟨by rw [mergeTol, Rat.mkRat_eq_div]; norm_num,
    (closePt_iff mergeTol ptA ptB).mp (by rfl),
    (closePt_iff mergeTol ptB ptC).mp (by rfl),
    of_decide_eq_false (by rfl)⟩

/-- C10: extract_edge_data produces exactly one record per line-segment or
arc-of-circle entry, in geometry order, and nothing for any other geometry
kind, so circles, B-splines, ellipses and points are invisible to the
reconstruction pipeline. -/
theorem C10_extract_edge_data_filters_lines_and_arcs (geoms : List SketchGeom) :
    extract_edge_data geoms = geoms.filterMap edgeRecordOf := by
  simpa [extract_edge_data] using extract_edge_data_foldl_init geoms []

/-- C9: colinear-run strictness. For the default tolerance 1e-2 degrees
and minimum run length 2 of find_colinear_edge_runs: (1) every returned
run has at least 2 edges, starts with its seed, and consists solely of
line edges whose direction angle matches the angle of the seed (the base
angle of the run) within 1e-2; (2) the identities claimed at the end are
exactly the identities of the returned runs, so discarded short runs are
given back to the unclaimed pool; (3) at each extension step a
continuation is appended precisely when some adjacent candidate edge
exists in the lookup, is unclaimed, is a line and matches the base angle
within 1e-2; (4) on the concrete boundary chain, the edge 1e-4 degrees off
the base angle merges into the run of the seed while the edge 0.1 degrees
off does not merge into any run. -/
theorem C9_colinear_run_strictness {V : Type} [DecidableEq V]
    (angleOf : REdge V → ℚ) (graph : RGraph V) (lookup : RLookup V)
    (unused : List (REdge V)) (fuel : ℕ) :
    (∀ run ∈ (find_colinear_edge_runs angleOf unused graph lookup (mkRat 1 100) 2 fuel).1,
        2 ≤ run.length ∧ goodRun angleOf (mkRat 1 100) run) ∧
    (find_colinear_edge_runs angleOf unused graph lookup (mkRat 1 100) 2 fuel).2 =
      (find_colinear_edge_runs angleOf unused graph lookup (mkRat 1 100) 2 fuel).1.flatMap
        (fun r => r.map REdge.eid) ∧
    (∀ (used : List ℕ) (base : ℚ) (cur : V) (cands : List V),
        (∃ p, colinearCandidate angleOf lookup (mkRat 1 100) used base cur cands = some p) ↔
        ∃ v ∈ cands, v ≠ cur ∧ ∃ e, getEdgeBetween lookup cur v = some e ∧
          e.eid ∉ used ∧ e.etype = EType.line ∧ |angleOf e - base| ≤ mkRat 1 100) ∧
    ((mkRat 1 100 : ℚ) = 1 / 100 ∧
      angleK edgeK2 - angleK edgeK1 = 1 / 10000 ∧
      angleK edgeK3 - angleK edgeK1 = 1 / 10 ∧
      (find_colinear_edge_runs angleK [edgeK1, edgeK2, edgeK3] graphK lookupK
          (mkRat 1 100) 2 10).1 = [[edgeK1, edgeK2]]) := by
  have hTol : (0 : ℚ) ≤ mkRat 1 100 := by rw [Rat.mkRat_eq_div]; norm_num
  obtain ⟨g1, g2⟩ := colinearFold_inv angleOf graph lookup (mkRat 1 100) hTol 2 fuel
    unused ([], []) (by simp) (by simp)
  refine ⟨g1, g2,
    fun used base cur cands =>
      colinearCandidate_isSome_iff angleOf lookup (mkRat 1 100) used base cur cands,
    by rw [Rat.mkRat_eq_div]; norm_num,
    by simp only [angleK, edgeK2, edgeK1]; norm_num [Rat.mkRat_eq_div],
    by simp only [angleK, edgeK3, edgeK1]; norm_num [Rat.mkRat_eq_div],
    by rfl⟩

/-- Witness for C9: the run kept on the concrete boundary chain satisfies
the guarantees of the claim theorem. -/
theorem C9_colinear_run_strictness_witness :
    2 ≤ [edgeK1, edgeK2].length ∧ goodRun angleK (mkRat 1 100) [edgeK1, edgeK2] := by
  have h := (C9_colinear_run_strictness angleK graphK lookupK [edgeK1, edgeK2, edgeK3] 10).1
  refine h [edgeK1, edgeK2] ?_
  have he : (find_colinear_edge_runs angleK [edgeK1, edgeK2, edgeK3] graphK lookupK
      (mkRat 1 100) 2 10).1 = [[edgeK1, edgeK2]] := by rfl
  rw [he]
  exact List.mem_singleton.mpr rfl

/-- C2: the colinear detector double-claims edges. find_colinear_edge_runs
receives no global claimed-identity set (its signature has none); its
extension walk checks candidates only against its own local set, so on a
square already claimed by the earlier detectors with an unclaimed colinear
stub attached, it returns the run [stub, bottom edge of the square] and
thereby re-claims identity 0, which the global set already holds. On the
same input, the fixed spline detector consults the global set and returns
nothing. -/
theorem C2_colinear_detector_double_claims :
    edgeS0.eid ∈ globalUsedS ∧
    (find_colinear_edge_runs angleS [edgeS4] graphS lookupS (mkRat 1 100) 2 10).1 =
      [[edgeS4, edgeS0]] ∧
    (∃ run ∈ (find_colinear_edge_runs angleS [edgeS4] graphS lookupS
        (mkRat 1 100) 2 10).1, ∃ x ∈ run, x.eid ∈ globalUsedS) ∧
    (find_spline_runs vecAngleS [edgeS4] graphS lookupS globalUsedS
        (mkRat 15 1) 4 10).1 = [] := by
  have he : (find_colinear_edge_runs angleS [edgeS4] graphS lookupS
      (mkRat 1 100) 2 10).1 = [[edgeS4, edgeS0]] := by rfl
  refine ⟨by decide, he, ?_, by rfl⟩
  refine ⟨[edgeS4, edgeS0], ?_, edgeS0, ?_, ?_⟩
  · rw [he]
    exact List.mem_singleton.mpr rfl
  · exact List.mem_cons_of_mem _ (List.mem_singleton.mpr rfl)
  · decide

/-- C7 counterexample: the claim that only walks returning to their start
are returned as polygons is false. On the open two-edge path 0-1-2 the
greedy walk dead-ends at vertex key 2 without returning to its start (the
walk flag is false, and no edge joins 2 back to 0 in either direction),
yet detect_polygons returns the walked sequence as a polygon because it
has 3 vertices and a nonempty resolved edge list. -/
theorem C7_open_walk_returned_as_polygon :
    (detect_polygons graphP lookupP).1 =
      [⟨[0, 1, 2], [edgeP1, edgeP2]⟩] ∧
    (polyWalk graphP 0 100 0 none [] []).2.2 = false ∧
    lookupGet lookupP (2, 0) = none ∧ getEdgeBetween lookupP 2 0 = none := by
  refine ⟨by rfl, by rfl, by rfl, by rfl⟩

/-- C7 amended: every polygon returned by detect_polygons has at least 3
and at most 100 walked vertices (the walk cap) and a nonempty resolved
edge list; the walk stops when it returns to the start with at least 3
vertices, dead-ends, or exhausts its 100 steps, and sequences that did
not return to their start are returned all the same. -/
theorem C7_detect_polygons_guarantees {V : Type} [DecidableEq V]
    (graph : RGraph V) (lookup : RLookup V) :
    ∀ p ∈ (detect_polygons graph lookup).1,
      3 ≤ p.vertices.length ∧ p.vertices.length ≤ 100 ∧ p.edges ≠ [] := by
  exact detectFold_inv graph lookup graph ([], []) (by simp)

/-- Witness for the amended C7 theorem on the open-path input. -/
theorem C7_detect_polygons_guarantees_witness :
    3 ≤ (RPoly.mk [0, 1, 2] [edgeP1, edgeP2] : RPoly ℕ).vertices.length ∧
    (RPoly.mk [0, 1, 2] [edgeP1, edgeP2] : RPoly ℕ).vertices.length ≤ 100 ∧
    (RPoly.mk [0, 1, 2] [edgeP1, edgeP2] : RPoly ℕ).edges ≠ [] := by
  refine C7_detect_polygons_guarantees graphP lookupP _ ?_
  have he : (detect_polygons graphP lookupP).1 =
      [⟨[0, 1, 2], [edgeP1, edgeP2]⟩] := by rfl
  rw [he]
  exact List.mem_singleton.mpr rfl

/-- C4: transaction atomicity of final_sketcher_main. With a sketch open,
the trace opens exactly one transaction, named at line 873 and opened
before any analysis; exactly one of commit and abort follows; a
successful pipeline commits and never aborts; a raising pipeline aborts
that transaction, never commits, and surfaces the error message; with no
sketch open, no transaction is ever opened. -/
theorem C4_transaction_atomicity (pipeline : Except String Unit) :
    (final_sketcher_main true pipeline).head? =
      some (HostAction.openTxn "SketchPolygonsToCircles") ∧
    countOpens (final_sketcher_main true pipeline) = 1 ∧
    countCommits (final_sketcher_main true pipeline) +
      countAborts (final_sketcher_main true pipeline) = 1 ∧
    (∀ u, pipeline = Except.ok u →
      countCommits (final_sketcher_main true pipeline) = 1 ∧
      countAborts (final_sketcher_main true pipeline) = 0) ∧
    (∀ e, pipeline = Except.error e →
      countAborts (final_sketcher_main true pipeline) = 1 ∧
      countCommits (final_sketcher_main true pipeline) = 0 ∧
      HostAction.printError ("Macro aborted due to error: " ++ e) ∈
        final_sketcher_main true pipeline) ∧
    countOpens (final_sketcher_main false pipeline) = 0 := by
  cases pipeline with
  | ok u =>
      refine ⟨by rfl, by rfl, by rfl, fun u' _ => ⟨by rfl, by rfl⟩, ?_, by rfl⟩
      intro e he
      exact absurd he (by simp)
  | error e =>
      refine ⟨by rfl, by rfl, by rfl, ?_, ?_, by rfl⟩
      · intro u' hu
        exact absurd hu (by simp)
      · intro e' he
        obtain rfl : e = e' := by simpa using he
        refine ⟨by rfl, by rfl, ?_⟩
        simp [final_sketcher_main]

/-- Witness for C4 at a concrete raising pipeline. -/
theorem C4_transaction_atomicity_witness :
    countAborts (final_sketcher_main true (Except.error "boom")) = 1 ∧
    countCommits (final_sketcher_main true (Except.error "boom")) = 0 ∧
    HostAction.printError ("Macro aborted due to error: " ++ "boom") ∈
      final_sketcher_main true (Except.error "boom") :=
  (C4_transaction_atomicity (Except.error "boom")).2.2.2.2.1 "boom" rfl

/-- C8 counterexample: the wire-topology keys are not rounded to 8
decimal digits. Tab4 lines 74-76 define round_coord with digits = 7,
shadowing the 8-digit version imported from SketcherWireDoctor_Main, so
the point (3e-8, 0) gets the key (0, 0) although its 8-digit rounding is
(3e-8, 0) itself. -/
theorem C8_round_coord_counterexample :
    round_coord (mkRat 3 100000000, mkRat 0 1) = (mkRat 0 1, mkRat 0 1) ∧
    roundTo 8 (mkRat 3 100000000) = mkRat 3 100000000 ∧
    round_coord (mkRat 3 100000000, mkRat 0 1) ≠
      (roundTo 8 (mkRat 3 100000000), roundTo 8 (mkRat 0 1)) ∧
    (mkRat 3 100000000 : ℚ) = 3 / 100000000 := by
  refine ⟨by rfl, by rfl, ?_, by rw [Rat.mkRat_eq_div]; norm_num⟩
  exact of_decide_eq_false (by rfl)

/-- C8 amended: every vertex coordinate key of the Tab4 topology graphs
and constraint maps is produced by rounding the x and y coordinates of
the point to exactly 7 decimal digits: the endpoint keys of lines, arcs
and B-splines and the keys of the coincident-constraint map are
round_coord of the raw point, round_coord rounds both coordinates with
roundTo 7, and roundTo 7 returns the multiple of 10^(-7) lying within
half of that unit of the raw coordinate. -/
theorem C8_topology_keys_round_to_7_digits :
    (∀ p q : ℚ × ℚ,
      get_geometry_endpoints (WdGeom.lineSegment p q) =
        (some (round_coord p), some (round_coord q)) ∧
      get_geometry_endpoints (WdGeom.arcOfCircle p q) =
        (some (round_coord p), some (round_coord q)) ∧
      get_geometry_endpoints (WdGeom.bSplineCurve p q) =
        (some (round_coord p), some (round_coord q))) ∧
    (∀ c : CoincidentConstraint,
      constraintMapEntries c =
        [(round_coord c.p1, round_coord c.p2), (round_coord c.p2, round_coord c.p1)]) ∧
    (∀ x y : ℚ, round_coord (x, y) = (roundTo 7 x, roundTo 7 y)) ∧
    (∀ x : ℚ, (∃ a : ℤ, roundTo 7 x = (a : ℚ) / 10 ^ 7) ∧
      |x - roundTo 7 x| ≤ 1 / (2 * 10 ^ 7)) :=
  ⟨fun _ _ => ⟨rfl, rfl, rfl⟩, fun _ => rfl, fun _ _ => rfl,
   fun x => roundTo_props 7 x⟩

/-- C3: phase gating of WireTopologyAnalyzer.analyze. When geometry
preparation succeeds: if phase 1 raises, the trace stops at phase 1 and
the analysis returns exactly the issues phase 1 accumulated; if phase 1
succeeds, the phases run in the order 1, 2, 2.5, 3, 4, 5 regardless of
exceptions inside the later phases, and the analysis returns the issues
each phase accumulated up to its own exception point. -/
theorem C3_phase_gating (r : AnalyzerRun) (hprep : r.prepErr = none) :
    (∀ m, r.p1.err = some m →
      (analyze r).1 = [PhaseId.ph1] ∧ (analyze r).2 = r.p1.issues) ∧
    (r.p1.err = none →
      (analyze r).1 =
        [PhaseId.ph1, PhaseId.ph2, PhaseId.ph25, PhaseId.ph3,
         PhaseId.ph4, PhaseId.ph5] ∧
      (analyze r).2 =
        r.p1.issues ++ r.p2.issues ++ r.p25.issues ++ r.p3.issues ++
          r.p4.issues ++ r.p5.issues) := by
  constructor
  · intro m hm
    simp [analyze, hprep, runPhase1, hm, collectAllIssues]
  · intro hm
    simp [analyze, hprep, runPhase1, hm, runLaterPhase, collectAllIssues]

/-- Witness for C3 on a run whose phase 1 raises after recording one
issue: only phase 1 executes and its issue is all that is returned. -/
theorem C3_phase_gating_witness :
    (analyze runEx).1 = [PhaseId.ph1] ∧ (analyze runEx).2 = runEx.p1.issues :=
  (C3_phase_gating runEx rfl).1 "constraint map build failed" rfl

/-- C5: bridge classification. A normal-geometry entry with distinct
endpoint keys is reported by the bridge phase, as a severity-3 BRIDGE
issue, precisely when it belongs to none of the enumerated loops and each
endpoint has a connectivity-graph neighbour other than the other
endpoint; and every issue of the bridge phase has severity 3. -/
theorem C5_bridge_classification {V : Type} [DecidableEq V] (normal : List (WGeom V))
    (allLoops : List (List ℕ)) (graph : WGraph V) (g : WGeom V) (s t : V)
    (hmem : g ∈ normal) (hnodup : (normal.map WGeom.idx).Nodup)
    (hs : g.start? = some s) (ht : g.endp? = some t) (hst : s ≠ t) :
    ((∃ issue ∈ phase3_bridge_issues normal allLoops graph, issue.geoIdx = g.idx) ↔
      (∀ loop ∈ allLoops, g.idx ∉ loop) ∧
      (∃ v ∈ wgraphGet graph s, v ≠ t) ∧ (∃ v ∈ wgraphGet graph t, v ≠ s)) ∧
    ∀ issue ∈ phase3_bridge_issues normal allLoops graph,
      issue.severity = 3 ∧ issue.itype = TopoIssueType.bridge := by
  constructor
  · rw [← isBridge_iff allLoops graph g s t hs ht hst]
    constructor
    · rintro ⟨issue, hi, heq⟩
      rcases List.mem_map.mp hi with ⟨idx, hidx, rfl⟩
      rcases (find_bridge_edges_mem normal allLoops graph idx).mp hidx with
        ⟨ge, hgem, hb, hgei⟩
      have hge : ge = g :=
        List.inj_on_of_nodup_map hnodup hgem hmem (by rw [hgei]; exact heq)
      rwa [hge] at hb
    · intro hb
      refine ⟨⟨g.idx, TopoIssueType.bridge, 3⟩, ?_, rfl⟩
      exact List.mem_map.mpr
        ⟨g.idx, (find_bridge_edges_mem normal allLoops graph g.idx).mpr
          ⟨g, hmem, hb, rfl⟩, rfl⟩
  · intro issue hi
    rcases List.mem_map.mp hi with ⟨idx, _, rfl⟩
    exact ⟨rfl, rfl⟩

/-- Witness for C5 on the two-triangles-with-connector scenario: the
connector (index 3) is reported as a bridge. -/
theorem C5_bridge_classification_witness :
    ∃ issue ∈ phase3_bridge_issues normalB allLoopsB graphB, issue.geoIdx = 3 := by
  have h := (C5_bridge_classification normalB allLoopsB graphB
    (⟨3, some 0, some 3⟩ : WGeom ℕ) 0 3
    (by decide) (by decide) rfl rfl (by decide)).1
  exact h.mpr (by decide)

/-- C6: subdivision detection and confidence. For a normal-geometry
entry with distinct endpoint keys in a duplicate-free geometry list:
(a) it is a subdivision candidate iff both endpoints have connectivity
degree strictly greater than 2; (b) when loops were enumerated, it is
reported iff it is a candidate and recounting loops on the connectivity
with the edge removed yields strictly fewer loops than the original
count; (c) when the group of interconnected loops around it is resolved
and both the group's perimeter-largest loop Lstar and the edge's
perimeter-largest containing loop Mstar inside the group are strict
unique maxima, the confidence verdict is WEAK iff Mstar is Lstar. -/
theorem C6_subdivision_detection_and_confidence
    (nGeo : ℕ) (geomLen : ℕ → Option ℚ) {V : Type} [DecidableEq V]
    (normal : List (WGeom V)) (graph : WGraph V) (em : WEdgeMap V)
    (allLoops : List (List ℕ)) (g : WGeom V) (s t : V)
    (containing groupLoops : List (List ℕ)) (gi : ℕ) (Lstar Mstar : List ℕ)
    (hmem : g ∈ normal) (hnodup : (normal.map WGeom.idx).Nodup)
    (hs : g.start? = some s) (ht : g.endp? = some t) (hst : s ≠ t)
    (hloops : allLoops ≠ [])
    (hcont : containing = allLoops.filter (fun loop => decide (g.idx ∈ loop)))
    (hgi : (find_loop_groups normal allLoops).findIdx?
        (fun gl => containing.any (fun loop => decide (loop ∈ gl))) = some gi)
    (hgrp : groupLoops = (find_loop_groups normal allLoops).getD gi [])
    (hLmem : Lstar ∈ groupLoops)
    (hLmax : ∀ L ∈ groupLoops, L ≠ Lstar →
      calculate_loop_perimeter nGeo geomLen L <
        calculate_loop_perimeter nGeo geomLen Lstar)
    (hMcont : Mstar ∈ containing) (hMgrp : Mstar ∈ groupLoops)
    (hMpos : 0 < calculate_loop_perimeter nGeo geomLen Mstar)
    (hMmax : ∀ L ∈ containing, L ∈ groupLoops → L ≠ Mstar →
      calculate_loop_perimeter nGeo geomLen L <
        calculate_loop_perimeter nGeo geomLen Mstar) :
    (g.idx ∈ get_subdivision_candidates normal graph ↔
      2 < degreeOf graph s ∧ 2 < degreeOf graph t) ∧
    (g.idx ∈ find_subdivision_edges_clean normal graph em allLoops ↔
      g.idx ∈ get_subdivision_candidates normal graph ∧
      count_loops_in_graph
          (removeEdgeFromConnectivity graph em s t g.idx).1
          (removeEdgeFromConnectivity graph em s t g.idx).2 <
        allLoops.length) ∧
    (get_subdivision_confidence nGeo geomLen normal g.idx allLoops =
        SubdivConfidence.weak ↔ Mstar = Lstar) := by
  have hfind : normal.find? (fun ge => decide (ge.idx = g.idx)) = some g :=
    wfind_eq normal g hnodup hmem
  refine ⟨?_, ?_, ?_⟩
  · rw [get_subdivision_candidates, mem_map_idx_filter normal _ g hnodup hmem]
    simp only [isSubdivisionCandidate, hs, ht, Bool.and_eq_true, decide_eq_true_eq]
    simp [hst]
  · rw [find_subdivision_edges_clean,
      if_neg (fun h => hloops (List.length_eq_zero.mp h)), List.mem_filter]
    constructor
    · rintro ⟨hc, hq⟩
      refine ⟨hc, ?_⟩
      rw [decide_eq_true_iff] at hq
      simp only [test_edge_removal, hfind, hs, ht] at hq
      omega
    · rintro ⟨hc, hcount⟩
      refine ⟨hc, ?_⟩
      rw [decide_eq_true_iff]
      simp only [test_edge_removal, hfind, hs, ht]
      omega
  · have hcne : containing ≠ [] := List.ne_nil_of_mem hMcont
    have hgne : groupLoops ≠ [] := List.ne_nil_of_mem hLmem
    rw [get_subdivision_confidence]
    simp only [← hcont, hgi]
    rw [if_neg hcne]
    simp only [← hgrp]
    rw [if_neg hgne,
      maxByPerimeter_unique_max nGeo geomLen groupLoops Lstar hLmem hLmax,
      edgeLargestLoop_eq nGeo geomLen containing groupLoops Mstar hMcont hMgrp
        hMpos hMmax]
    show (if Mstar = Lstar then SubdivConfidence.weak else SubdivConfidence.strong) =
        SubdivConfidence.weak ↔ Mstar = Lstar
    by_cases h : Mstar = Lstar
    · rw [if_pos h]
      exact iff_of_true rfl h
    · rw [if_neg h]
      exact iff_of_false (by decide) h

/-- Witness for C6 on the bisected rectangle with the long left half:
the chord (index 6, between the two degree-3 midpoints) is a candidate,
its removal drops the loop count from 3 below 3, and since its largest
containing loop (the left half, perimeter 8) differs from the group's
largest loop (the outer boundary, perimeter 10) its confidence is not
WEAK. -/
theorem C6_subdivision_detection_and_confidence_witness :
    (6 ∈ get_subdivision_candidates normalR graphR ↔
      2 < degreeOf graphR 1 ∧ 2 < degreeOf graphR 4) ∧
    (6 ∈ find_subdivision_edges_clean normalR graphR emR allLoopsR ↔
      6 ∈ get_subdivision_candidates normalR graphR ∧
      count_loops_in_graph
          (removeEdgeFromConnectivity graphR emR 1 4 6).1
          (removeEdgeFromConnectivity graphR emR 1 4 6).2 <
        allLoopsR.length) ∧
    (get_subdivision_confidence 7 geomLenR normalR 6 allLoopsR =
        SubdivConfidence.weak ↔ [0, 6, 4, 5] = [0, 1, 2, 3, 4, 5]) :=
  C6_subdivision_detection_and_confidence 7 geomLenR normalR graphR emR allLoopsR
    (⟨6, some 1, some 4⟩ : WGeom ℕ) 1 4 [[0, 6, 4, 5], [1, 2, 3, 6]]
    [[0, 6, 4, 5], [1, 2, 3, 6], [0, 1, 2, 3, 4, 5]] 0
    [0, 1, 2, 3, 4, 5] [0, 6, 4, 5]
    (by decide) (by decide) rfl rfl (by decide) (by decide)
    (by decide) (by decide) (by decide) (by decide) (by decide)
    (by decide) (by decide) (by decide) (by decide)

end Claims

end Detessellate
